import Mathlib

/-!
# Verification of the RsExtractor OCR subtitle pipeline

Shallow embedding of the OCR subtitle core of `RsExtractor`
(`src-tauri/src/tools/ocr/subtitles.rs` and `src-tauri/src/tools/ocr/perform.rs`)
and proofs of the specified properties.

Modelling conventions:
* Rust `String` / `&str` values are modelled as `List Char` (Rust strings are
  sequences of Unicode scalar values; `chars()` iteration order is list order).
* Rust `f64` values (confidences, thresholds, fps) are modelled as `ℚ`.
  All arithmetic the code performs on them (`+`, `-`, `*`, `/`, `ceil`,
  `round`, comparisons, `max`, `min`, `abs`) is exact rational arithmetic;
  `NaN` does not exist in the model (the code's `clamp_f64` maps `NaN` to the
  lower bound, a case that cannot arise here).
* Rust `u32`/`u64`/`usize` values are modelled as `ℕ`; the quantities involved
  (frame counts, millisecond timestamps) are far below `2^32`, and the code
  uses `saturating_sub` / `saturating_add` (modelled by truncated `ℕ`
  subtraction and plain addition).
* Rust `str::to_lowercase` is modelled by the per-character ASCII case
  mapping (`Char.toLower`); none of the case-mapped characters relevant to the
  properties proved here have multi-character or non-ASCII lowercase forms.
-/

namespace RsExtractor

/-! ## Character classes (Rust `char` predicates) -/

/-- Rust `char::is_whitespace`: membership in the Unicode `White_Space` set. -/
def isRustWhitespace (c : Char) : Bool :=
  [0x09, 0x0A, 0x0B, 0x0C, 0x0D, 0x20, 0x85, 0xA0, 0x1680,
   0x2000, 0x2001, 0x2002, 0x2003, 0x2004, 0x2005, 0x2006, 0x2007,
   0x2008, 0x2009, 0x200A, 0x2028, 0x2029, 0x202F, 0x205F, 0x3000].contains c.toNat

/-- Rust `char::is_ascii_punctuation`:
`!..=/`, `:..=@`, `[..=`` ` ``, `{..=~`. -/
def isAsciiPunctuation (c : Char) : Bool :=
  (0x21 ≤ c.toNat && c.toNat ≤ 0x2F) ||
  (0x3A ≤ c.toNat && c.toNat ≤ 0x40) ||
  (0x5B ≤ c.toNat && c.toNat ≤ 0x60) ||
  (0x7B ≤ c.toNat && c.toNat ≤ 0x7E)

/-- `subtitles.rs::is_edge_punctuation`: whitespace, ASCII punctuation, or one
of the listed CJK full-width punctuation marks. -/
def is_edge_punctuation (c : Char) : Bool :=
  isRustWhitespace c || isAsciiPunctuation c ||
  ['，', '。', '！', '？', '：', '；', '、', '“', '”', '‘', '’',
   '《', '》', '（', '）', '【', '】', '—', '…', '～', '·'].contains c

/-! ## Text normalization (`subtitles.rs`) -/

/-- Loop body of `collapse_whitespace`: iterate over the characters, keeping a
`last_was_space` flag; a whitespace character appends a single ASCII space when
the previous character was not whitespace and output is nonempty. -/
def collapseGo : List Char → List Char → Bool → List Char
  | [], out, _ => out
  | c :: rest, out, lastWasSpace =>
    if isRustWhitespace c then
      collapseGo rest (if !lastWasSpace && !out.isEmpty then out ++ [' '] else out) true
    else
      collapseGo rest (out ++ [c]) false

/-- Rust `str::trim_matches`-style left trim. -/
def trimStart (p : Char → Bool) (s : List Char) : List Char := s.dropWhile p

/-- Rust `str::trim_matches`-style right trim. -/
def trimEnd (p : Char → Bool) (s : List Char) : List Char :=
  (s.reverse.dropWhile p).reverse

/-- Rust `str::trim_matches p`: remove matching characters from both ends. -/
def trimMatches (p : Char → Bool) (s : List Char) : List Char :=
  trimEnd p (trimStart p s)

/-- `subtitles.rs::collapse_whitespace`: collapse whitespace runs to single
ASCII spaces (never emitting a leading space), then `str::trim`. -/
def collapse_whitespace (text : List Char) : List Char :=
  trimMatches isRustWhitespace (collapseGo text [] false)

/-- Rust `str::to_lowercase`, modelled as the per-character ASCII case map. -/
def to_lowercase (s : List Char) : List Char := s.map Char.toLower

/-- `subtitles.rs::normalize_text_for_compare`: collapse whitespace, trim edge
punctuation, case-fold. -/
def normalize_text_for_compare (text : List Char) : List Char :=
  to_lowercase (trimMatches is_edge_punctuation (collapse_whitespace text))

/-! ## Levenshtein distance (`subtitles.rs`) -/

/-- Reference (mathematical) Levenshtein distance with unit costs, used to
state what `levenshtein_distance_bounded` computes. -/
def lev : List Char → List Char → ℕ
  | [], ys => ys.length
  | _ :: xs, [] => xs.length + 1
  | x :: xs, y :: ys =>
    min (min (lev (x :: xs) ys + 1) (lev xs (y :: ys) + 1))
      (lev xs ys + if x = y then 0 else 1)
termination_by xs ys => xs.length + ys.length

/-- Inner loop of `levenshtein_distance_bounded`: walk the remaining
characters of `short` together with the tail of the previous DP row
(`p0 :: p1 :: …`), carrying the value `curPrev` just written into the current
row, and produce the rest of the current row
(`ins = cur[i]+1`, `del = prev[i+1]+1`, `sub = prev[i]+cost`). -/
def levRowGo (longCh : Char) : List Char → List ℕ → ℕ → List ℕ
  | [], _, _ => []
  | s :: ss, p0 :: p1 :: ps, curPrev =>
    let val := min (min (curPrev + 1) (p1 + 1)) (p0 + if s = longCh then 0 else 1)
    val :: levRowGo longCh ss (p1 :: ps) val
  | _ :: _, _, _ => []

/-- One iteration of the outer loop of `levenshtein_distance_bounded`:
`cur[0] = j + 1`, then the inner loop fills the rest of the row. -/
def levRowNext (short : List Char) (longCh : Char) (prev : List ℕ) (j : ℕ) : List ℕ :=
  (j + 1) :: levRowGo longCh short prev (j + 1)

/-- Outer loop of `levenshtein_distance_bounded` over the characters of
`long`, with the early exit once every value of a row (`row_min`) exceeds
`maxDist`. -/
def levLoop (short : List Char) (maxDist : ℕ) : List Char → ℕ → List ℕ → Option (List ℕ)
  | [], _, prev => some prev
  | c :: cs, j, prev =>
    let cur := levRowNext short c prev j
    if maxDist < cur.foldl min (j + 1) then none
    else levLoop short maxDist cs (j + 1) cur

/-- `subtitles.rs::levenshtein_distance_bounded`: order the inputs by length,
skip entirely when the length difference alone exceeds the bound, run the
row-by-row DP with early exit, and accept the final value only when it is
within the bound. -/
def levenshtein_distance_bounded (a b : List Char) (maxDist : ℕ) : Option ℕ :=
  let short := if a.length ≤ b.length then a else b
  let long := if a.length ≤ b.length then b else a
  if maxDist < long.length - short.length then none
  else
    match levLoop short maxDist long 0 (List.range (short.length + 1)) with
    | none => none
    | some prev =>
      let d := prev.getLastD 0
      if d ≤ maxDist then some d else none

/-- Reversed nonempty prefixes of `ss`, each appended (reversed) onto `acc`:
`[s₀ :: acc, s₁ :: s₀ :: acc, …]`.  Used only to state what the DP rows of
`levenshtein_distance_bounded` contain. -/
def revPrefs (acc : List Char) : List Char → List (List Char)
  | [] => []
  | s :: ss => (s :: acc) :: revPrefs (s :: acc) ss

/-- The intended value of the DP row of `levenshtein_distance_bounded` after
the characters `L.reverse` of `long` have been consumed: entry `i` is the
distance between the reversed `i`-prefix of `short` and `L`. -/
def specRow (short L : List Char) : List ℕ :=
  lev [] L :: (revPrefs [] short).map (fun r => lev r L)

/-- All whitespace in `r` is the single ASCII space `collapse_whitespace` emits. -/
def wsOnlySpace (r : List Char) : Prop :=
  ∀ c ∈ r, isRustWhitespace c = true → c = ' '

/-- No two adjacent whitespace characters in `r`. -/
def noWsRun (r : List Char) : Prop :=
  List.Chain' (fun x y => isRustWhitespace x = true → isRustWhitespace y = false) r

/-- The first character of `r`, if any, does not satisfy `p`. -/
def headNot (p : Char → Bool) (r : List Char) : Prop :=
  ∀ c, r.head? = some c → p c = false

/-- The last character of `r`, if any, does not satisfy `p`. -/
def lastNot (p : Char → Bool) (r : List Char) : Prop :=
  ∀ c, r.getLast? = some c → p c = false

/-- `subtitles.rs::clamp_f64` (the `NaN` branch cannot arise over `ℚ`):
`value.max(min).min(max)`. -/
def clamp_f64 (value lo hi : ℚ) : ℚ := min (max value lo) hi

/-- `subtitles.rs::texts_are_similar`. -/
def texts_are_similar (aKey bKey : List Char) (threshold : ℚ) : Bool :=
  if aKey = bKey then true
  else
    let aLen := aKey.length
    let bLen := bKey.length
    let minLen := min aLen bLen
    let maxLen := max aLen bLen
    if minLen < 6 then
      if aLen ≠ bLen then false
      else
        match levenshtein_distance_bounded aKey bKey 1 with
        | some dist => dist ≤ 1
        | none => false
    else
      let t := clamp_f64 threshold 0 1
      let maxDist := (⌈(1 - t) * (maxLen : ℚ)⌉).toNat
      if maxDist = 0 then false
      else
        match levenshtein_distance_bounded aKey bKey maxDist with
        | some dist => decide (1 - (dist : ℚ) / (maxLen : ℚ) + 1 / 1000000000 ≥ t)
        | none => false

/-! ## Data model (`tools/ocr`) -/

/-- `OcrFrameResult`: one per-frame recognition result. -/
structure OcrFrameResult where
  frame_index : ℕ
  time_ms : ℕ
  text : List Char
  confidence : ℚ
deriving DecidableEq, Repr

/-- `OcrSubtitleCleanupOptions`. -/
structure OcrSubtitleCleanupOptions where
  merge_similar : Bool
  similarity_threshold : ℚ
  max_gap_ms : ℕ
  min_cue_duration_ms : ℕ
  filter_url_like : Bool
deriving DecidableEq, Repr

/-- `OcrSubtitleEntry`: a final subtitle cue. -/
structure OcrSubtitleEntry where
  id : List Char
  text : List Char
  start_time : ℕ
  end_time : ℕ
  confidence : ℚ
deriving DecidableEq, Repr

/-- `subtitles.rs::SegmentCandidate`. -/
structure SegmentCandidate where
  key : List Char
  text : List Char
  confidence : ℚ
deriving DecidableEq, Repr

/-- `subtitles.rs::SubtitleSegment`. -/
structure SubtitleSegment where
  start_time : ℕ
  last_seen_time : ℕ
  last_seen_frame_index : ℕ
  baseline_key : List Char
  baseline_confidence : ℚ
  candidates : List SegmentCandidate
deriving DecidableEq, Repr

/-! ## Subtitle generation (`subtitles.rs::generate_subtitles_core`) -/

/-- Rust `f64::round()` followed by `as u64`: `⌊x + 1/2⌋.toNat`.  For `x ≥ 0`
this is round-half-away-from-zero; negative values saturate to `0`, exactly as
the `as u64` cast does. -/
def roundAsU64 (x : ℚ) : ℕ := (⌊x + 1/2⌋).toNat

/-- `subtitles.rs::frame_end_time_ms`. -/
def frame_end_time_ms (frame_index : ℕ) (fps : ℚ) : ℕ :=
  roundAsU64 (((frame_index : ℚ) + 1) * (1000 / fps))

/-- Rust `String::len`: the UTF-8 byte length. -/
def utf8Len (s : List Char) : ℕ := (s.map Char.utf8Size).sum

/-- One candidate folded into the `HashMap` of `select_segment_text`,
modelled as an insertion-ordered association list
`key ↦ (count, max_confidence, text_at_max_confidence)` (Rust `HashMap`
iteration order is unspecified; the model fixes first-insertion order, which
only matters on exact confidence/count ties). -/
def updateStats (stats : List (List Char × ℕ × ℚ × List Char)) (c : SegmentCandidate) :
    List (List Char × ℕ × ℚ × List Char) :=
  match stats with
  | [] => [(c.key, 1, if c.confidence > 0 then c.confidence else 0, c.text)]
  | (k, cnt, mc, tx) :: rest =>
    if k = c.key then
      if c.confidence > mc then (k, cnt + 1, c.confidence, c.text) :: rest
      else (k, cnt + 1, mc, tx) :: rest
    else (k, cnt, mc, tx) :: updateStats rest c

/-- Accumulator of the selection loop in `select_segment_text`. -/
structure SelState where
  best_key : Option (List Char)
  best_count : ℕ
  best_confidence : ℚ
  best_text : List Char
deriving DecidableEq, Repr

/-- One step of the selection loop in `select_segment_text`. -/
def selStep (st : SelState) : (List Char × ℕ × ℚ × List Char) → SelState
  | (k, cnt, mc, tx) =>
    if mc > st.best_confidence + 1 / 1000000000 ∨
        (|mc - st.best_confidence| ≤ 1 / 1000000000 ∧ cnt > st.best_count) then
      { best_key := some k, best_count := cnt, best_confidence := mc, best_text := tx }
    else st

/-- `subtitles.rs::select_segment_text`. -/
def select_segment_text (candidates : List SegmentCandidate) :
    Option (List Char × ℚ) :=
  if candidates.isEmpty then none
  else
    let stats := candidates.foldl updateStats []
    let st := stats.foldl selStep ⟨none, 0, -1, []⟩
    st.best_key.map (fun _ => (st.best_text, st.best_confidence))

/-- A fresh `SubtitleSegment` opened at `frame` (the repeated struct literal
of `generate_subtitles_core`). -/
def newSegment (frame : OcrFrameResult) (key display : List Char) : SubtitleSegment :=
  { start_time := frame.time_ms
    last_seen_time := frame.time_ms
    last_seen_frame_index := frame.frame_index
    baseline_key := key
    baseline_confidence := frame.confidence
    candidates := [⟨key, display, frame.confidence⟩] }

/-- One iteration of the Segment Builder loop of `generate_subtitles_core`
(the `on_progress` callback has no effect on the result and is dropped).
State is `(closed segments, current open segment)`. -/
def processFrameResult (mergeSimilar : Bool) (similarityThreshold : ℚ)
    (maxGapMs : ℕ) (minConfidence : ℚ)
    (st : List SubtitleSegment × Option SubtitleSegment) (frame : OcrFrameResult) :
    List SubtitleSegment × Option SubtitleSegment :=
  let display_text := collapse_whitespace frame.text
  let key := normalize_text_for_compare display_text
  if ¬ (minConfidence ≤ frame.confidence ∧ key ≠ []) then
    match st.2 with
    | some seg =>
      if maxGapMs < frame.time_ms - seg.last_seen_time then (st.1 ++ [seg], none)
      else st
    | none => st
  else
    match st.2 with
    | some seg =>
      if maxGapMs < frame.time_ms - seg.last_seen_time then
        (st.1 ++ [seg], some (newSegment frame key display_text))
      else
        if (if mergeSimilar then texts_are_similar seg.baseline_key key similarityThreshold
            else seg.baseline_key == key) then
          (st.1, some
            { start_time := seg.start_time
              last_seen_time := frame.time_ms
              last_seen_frame_index := frame.frame_index
              baseline_key :=
                if frame.confidence > seg.baseline_confidence + 1 / 1000000000 then key
                else seg.baseline_key
              baseline_confidence :=
                if frame.confidence > seg.baseline_confidence + 1 / 1000000000 then
                  frame.confidence
                else seg.baseline_confidence
              candidates := seg.candidates ++ [⟨key, display_text, frame.confidence⟩] })
        else (st.1 ++ [seg], some (newSegment frame key display_text))
    | none => (st.1, some (newSegment frame key display_text))

/-- Decimal digits of `n` (Rust `format!("{}", n)`). -/
def natToChars (n : ℕ) : List Char := Nat.toDigits 10 n

/-- The cue id `format!("sub-{}", n)`. -/
def subtitle_id (n : ℕ) : List Char := ('s' :: 'u' :: 'b' :: '-' :: []) ++ natToChars n

/-- One iteration of the cue-construction loop of `generate_subtitles_core`:
select the segment's text, derive the end time (forcing `start_time + 1` in
the degenerate case), and assign the id `sub-(len+1)`. -/
def buildStep (fps : ℚ) (subs : List OcrSubtitleEntry) (seg : SubtitleSegment) :
    List OcrSubtitleEntry :=
  match select_segment_text seg.candidates with
  | none => subs
  | some (text, confidence) =>
    let e := frame_end_time_ms seg.last_seen_frame_index fps
    let end_time := if e ≤ seg.start_time then seg.start_time + 1 else e
    subs ++ [{ id := subtitle_id (subs.length + 1), text := text,
               start_time := seg.start_time, end_time := end_time,
               confidence := confidence }]

/-- The cue-construction loop of `generate_subtitles_core`. -/
def build_subtitles (fps : ℚ) (segments : List SubtitleSegment) :
    List OcrSubtitleEntry :=
  segments.foldl (buildStep fps) []

/-! ## URL filtering (`subtitles.rs`) -/

/-- Rust `char::is_ascii_alphabetic`. -/
def isAsciiAlphabetic (c : Char) : Bool :=
  (0x41 ≤ c.toNat && c.toNat ≤ 0x5A) || (0x61 ≤ c.toNat && c.toNat ≤ 0x7A)

/-- Rust `char::is_ascii_alphanumeric`. -/
def isAsciiAlphanumeric (c : Char) : Bool :=
  (0x30 ≤ c.toNat && c.toNat ≤ 0x39) || isAsciiAlphabetic c

/-- Rust `str::contains` for a literal substring. -/
def containsSubstring : List Char → List Char → Bool
  | [], needle => needle.isEmpty
  | c :: t, needle => needle.isPrefixOf (c :: t) || containsSubstring t needle

/-- Rust `str::to_ascii_lowercase` (the per-character ASCII case map). -/
def to_ascii_lowercase (s : List Char) : List Char := s.map Char.toLower

/-- Helper of `split_whitespace`: accumulate the current word (reversed). -/
def splitWsGo : List Char → List Char → List (List Char)
  | [], cur => if cur.isEmpty then [] else [cur.reverse]
  | c :: t, cur =>
    if isRustWhitespace c then
      if cur.isEmpty then splitWsGo t [] else cur.reverse :: splitWsGo t []
    else splitWsGo t (c :: cur)

/-- Rust `str::split_whitespace`: non-empty runs between Unicode whitespace. -/
def split_whitespace (s : List Char) : List (List Char) := splitWsGo s []

/-- `subtitles.rs::token_looks_like_domain`. -/
def token_looks_like_domain (token : List Char) : Bool :=
  let token := trimMatches
    (fun c => !isAsciiAlphanumeric c && !(c == '.') && !(c == '-')) token
  let parts := token.splitOn '.'
  if parts.length < 2 || parts.any List.isEmpty then false
  else
    let tld := parts.getLastD []
    if !(decide (2 ≤ tld.length) && decide (tld.length ≤ 6)) ||
        !(tld.all isAsciiAlphabetic) then false
    else
      let domain := parts.dropLast.getLastD []
      if domain.length < 2 || !(domain.any isAsciiAlphabetic) then false
      else true

/-- `subtitles.rs::text_looks_url_like`. -/
def text_looks_url_like (text : List Char) : Bool :=
  let lower := to_ascii_lowercase text
  if containsSubstring lower ("http://".toList) ||
      containsSubstring lower ("https://".toList) ||
      containsSubstring lower ("www.".toList) then true
  else if containsSubstring lower (".com".toList) ||
      containsSubstring lower (".net".toList) ||
      containsSubstring lower (".org".toList) ||
      containsSubstring lower (".co".toList) ||
      containsSubstring lower (".io".toList) ||
      containsSubstring lower (".me".toList) ||
      containsSubstring lower (".tv".toList) ||
      containsSubstring lower (".app".toList) then true
  else (split_whitespace lower).any token_looks_like_domain

/-! ## Cue post-processing (`subtitles.rs` lines 702-743) -/

/-- One iteration of the adjacency-merge scan: merge `sub` into the last kept
cue when the gap is small and the texts are similar (strictly, or at the
relaxed 0.80 threshold when either cue is short). -/
def mergeStep (similarityThreshold : ℚ) (maxGapMs minCueDurationMs : ℕ)
    (merged : List OcrSubtitleEntry) (sub : OcrSubtitleEntry) :
    List OcrSubtitleEntry :=
  match merged.getLast? with
  | none => merged ++ [sub]
  | some prev =>
    let prev_key := normalize_text_for_compare prev.text
    let sub_key := normalize_text_for_compare sub.text
    if sub.start_time - prev.end_time ≤ maxGapMs ∧
        (texts_are_similar prev_key sub_key similarityThreshold = true ∨
          ((prev.end_time - prev.start_time < minCueDurationMs ∨
            sub.end_time - sub.start_time < minCueDurationMs) ∧
            texts_are_similar prev_key sub_key (80 / 100) = true)) then
      merged.dropLast ++ [{ prev with
        end_time := max prev.end_time sub.end_time
        text :=
          if sub.confidence > prev.confidence + 1 / 1000000000 ∨
              (|sub.confidence - prev.confidence| ≤ 1 / 1000000000 ∧
                utf8Len prev.text < utf8Len sub.text) then sub.text
          else prev.text
        confidence := max prev.confidence sub.confidence }]
    else merged ++ [sub]

/-- The Cue Post-Processor of `generate_subtitles_core`: the optional URL
filter (`retain`), then — only when merging is enabled and more than one cue
remains — the adjacency-merge scan followed by dense renumbering. -/
def post_process (filterUrlLike mergeSimilar : Bool) (similarityThreshold : ℚ)
    (maxGapMs minCueDurationMs : ℕ) (subtitles : List OcrSubtitleEntry) :
    List OcrSubtitleEntry :=
  let subtitles :=
    if filterUrlLike then subtitles.filter (fun s => !text_looks_url_like s.text)
    else subtitles
  if mergeSimilar ∧ 1 < subtitles.length then
    let merged :=
      subtitles.foldl (mergeStep similarityThreshold maxGapMs minCueDurationMs) []
    merged.mapIdx (fun i s => { s with id := subtitle_id (i + 1) })
  else subtitles

/-- `subtitles.rs::generate_subtitles_core` (the progress callback, which does
not influence the result, is dropped). -/
def generate_subtitles_core (frame_results : List OcrFrameResult) (fps : ℚ)
    (min_confidence : ℚ) (cleanup : OcrSubtitleCleanupOptions) :
    Except String (List OcrSubtitleEntry) :=
  if fps ≤ 0 then Except.error "FPS must be greater than 0"
  else
    let similarity_threshold :=
      if cleanup.merge_similar then
        clamp_f64 cleanup.similarity_threshold (80 / 100) (98 / 100)
      else 1
    let minConf := clamp_f64 min_confidence 0 1
    let st := frame_results.foldl
      (processFrameResult cleanup.merge_similar similarity_threshold
        cleanup.max_gap_ms minConf) ([], none)
    let segments := match st.2 with
      | some seg => st.1 ++ [seg]
      | none => st.1
    let subtitles := build_subtitles fps segments
    Except.ok (post_process cleanup.filter_url_like cleanup.merge_similar
      similarity_threshold cleanup.max_gap_ms cleanup.min_cue_duration_ms subtitles)


/-! ## OCR recognition pool (`perform.rs`) -/

/-- One recognized region of a frame image, as consumed by the worker loop:
its text, its confidence score and the top coordinate of its bounding box
(`r.bbox.rect.top()`). -/
structure OcrRegion where
  text : List Char
  confidence : ℚ
  top : ℚ
deriving DecidableEq, Repr

/-- The I/O outcome of one frame file on disk: `image = false` models a
failure of `image::open`, `recog = none` a failure of `engine.recognize`, and
`recog = some rs` a successful recognition returning the regions `rs`. -/
structure FrameInput where
  image : Bool
  recog : Option (List OcrRegion)
deriving DecidableEq, Repr

/-- The per-frame body of the worker loop (`perform_ocr_core` lines 68-108,
identical in the `perform_ocr` command): `none` when the image fails to load
or recognition fails (the frame is skipped), otherwise the assembled
`OcrFrameResult` — regions stably sorted by their top coordinate, trimmed
non-empty texts joined with single spaces, confidences averaged (`0` for no
regions), `time_ms = round(frame_index * 1000/fps)`. -/
def processFrame (fps : ℚ) (frame_index : ℕ) (f : FrameInput) : Option OcrFrameResult :=
  if !f.image then none
  else
    match f.recog with
    | none => none
    | some regions =>
      let sorted := regions.mergeSort (fun a b => decide (a.top ≤ b.top))
      let combined_text := List.intercalate [' ']
        ((sorted.map (fun r => trimMatches isRustWhitespace r.text)).filter
          (fun t => !t.isEmpty))
      let avg_confidence : ℚ :=
        if sorted.isEmpty then 0
        else (sorted.map (fun r => r.confidence)).sum / (sorted.length : ℚ)
      some ⟨frame_index, roundAsU64 ((frame_index : ℚ) * (1000 / fps)),
        combined_text, avg_confidence⟩

/-- Rust `slice::chunks k` for `k ≥ 1`: consecutive chunks of `k` elements
each, the last chunk possibly shorter.  (Rust's `chunks 0` is unreachable
here: the chunk size below is a ceiling division of a positive length.) -/
def listChunks {α : Type} : List α → ℕ → List (List α)
  | [], _ => []
  | x :: xs, k => (x :: xs.take (k - 1)) :: listChunks (xs.drop (k - 1)) k
termination_by l _ => l.length
decreasing_by simp [List.length_drop]; omega

/-- The frame loop of one worker (`perform_ocr` lines 249-349): process the
chunk's frames in order, skipping failed frames, advancing the shared progress
counter once per attempted frame; abort with "OCR cancelled" when the
cancellation flag is observed.  The flag is a static parameter of the model:
the Rust code re-reads a shared map on every iteration, and the claims below
concern runs during which it does not change. -/
def workerLoop (cancelled : Bool) (fps : ℚ) :
    List (ℕ × FrameInput) → List OcrFrameResult → ℕ →
      Except String (List OcrFrameResult) × ℕ
  | [], acc, prog => (Except.ok acc, prog)
  | (idx, f) :: rest, acc, prog =>
    if cancelled then (Except.error "OCR cancelled", prog)
    else
      match processFrame fps idx f with
      | none => workerLoop cancelled fps rest acc (prog + 1)
      | some r => workerLoop cancelled fps rest (acc ++ [r]) (prog + 1)

/-- One worker (`perform_ocr` lines 229-352): cancellation check, engine
creation — its outcome `engine` is a parameter of the model, shared by all
workers — then the frame loop.  The workers of `perform_ocr_core`
(lines 64-111) are the same with `cancelled = false`, the progress counter
unused. -/
def workerRun (cancelled : Bool) (engine : Except String Unit) (fps : ℚ)
    (chunk : List (ℕ × FrameInput)) (prog : ℕ) :
    Except String (List OcrFrameResult) × ℕ :=
  if cancelled then (Except.error "OCR cancelled", prog)
  else
    match engine with
    | Except.error e => (Except.error e, prog)
    | Except.ok _ => workerLoop cancelled fps chunk [] prog

/-- Sequential model of the rayon `collect` over the chunk workers: chunk
outputs keep chunk order (as `collect` on an indexed parallel iterator does),
the shared progress counter is threaded through, and the first worker error
wins. -/
def collectWorkers (cancelled : Bool) (engine : Except String Unit) (fps : ℚ) :
    List (List (ℕ × FrameInput)) → ℕ →
      Except String (List (List OcrFrameResult)) × ℕ
  | [], prog => (Except.ok [], prog)
  | chunk :: rest, prog =>
    match workerRun cancelled engine fps chunk prog with
    | (Except.error e, prog1) => (Except.error e, prog1)
    | (Except.ok rs, prog1) =>
      match collectWorkers cancelled engine fps rest prog1 with
      | (Except.error e, prog2) => (Except.error e, prog2)
      | (Except.ok rss, prog2) => (Except.ok (rs :: rss), prog2)

/-- `perform.rs::perform_ocr_core`, starting from the sorted frame listing:
`frames` is the directory's `.png` entries in filename order, each given by
its I/O outcome (`validate_directory_path`, `read_dir` and the filesystem are
outside the model).  Per-worker engine creation has one shared outcome
`engine`; a thread-pool build failure is not modelled. -/
def perform_ocr_core (frames : List FrameInput) (fps : ℚ) (num_workers : ℕ)
    (engine : Except String Unit) : Except String (List OcrFrameResult) :=
  if fps ≤ 0 then Except.error "FPS must be greater than 0"
  else if frames.isEmpty then Except.ok []
  else
    let frame_data := frames.enum
    let workers := max 1 num_workers
    let chunk_size := (frame_data.length + workers - 1) / workers
    match (collectWorkers false engine fps (listChunks frame_data chunk_size) 0).1 with
    | Except.error e => Except.error e
    | Except.ok rss =>
      Except.ok (rss.flatten.mergeSort (fun a b => decide (a.frame_index ≤ b.frame_index)))

/-- The compute path of the `perform_ocr` command (lines 123-386): the same
pipeline as `perform_ocr_core` plus the cancellation checks and the shared
progress counter, whose final value is returned alongside the result (event
emission and logging do not influence it). -/
def perform_ocr_run (frames : List FrameInput) (fps : ℚ) (num_workers : ℕ)
    (cancelled : Bool) (engine : Except String Unit) :
    Except String (List OcrFrameResult) × ℕ :=
  if fps ≤ 0 then (Except.error "FPS must be greater than 0", 0)
  else if frames.isEmpty then (Except.ok [], 0)
  else
    let frame_data := frames.enum
    let workers := max 1 num_workers
    let chunk_size := (frame_data.length + workers - 1) / workers
    match collectWorkers cancelled engine fps (listChunks frame_data chunk_size) 0 with
    | (Except.error e, prog) => (Except.error e, prog)
    | (Except.ok rss, prog) =>
      (Except.ok (rss.flatten.mergeSort (fun a b => decide (a.frame_index ≤ b.frame_index))),
        prog)

end RsExtractor

namespace RsExtractor


/-! ### Reference-distance lemmas -/

@[simp] theorem lev_nil_left (ys : List Char) : lev [] ys = ys.length := by
  cases ys <;> simp [lev]

@[simp] theorem lev_nil_right (xs : List Char) : lev xs [] = xs.length := by
  cases xs <;> simp [lev]

theorem lev_cons_cons (x y : Char) (xs ys : List Char) :
    lev (x :: xs) (y :: ys) =
      min (min (lev (x :: xs) ys + 1) (lev xs (y :: ys) + 1))
        (lev xs ys + if x = y then 0 else 1) := by
  simp [lev]

/-- The "append one character at each end" recurrence for `lev`. -/
theorem lev_append_append (u v : List Char) (a b : Char) :
    lev (u ++ [a]) (v ++ [b]) =
      min (min (lev (u ++ [a]) v + 1) (lev u (v ++ [b]) + 1))
        (lev u v + if a = b then 0 else 1) := by
  generalize hn : u.length + v.length = n
  induction n using Nat.strong_induction_on generalizing u v with
  | _ n ih =>
  match u, v with
  | [], [] =>
    simp only [List.nil_append]
    exact lev_cons_cons a b [] []
  | [], y :: v' =>
    have h1 : lev [a] (v' ++ [b]) =
        min (min (lev [a] v' + 1) (lev [] (v' ++ [b]) + 1))
          (lev [] v' + if a = b then 0 else 1) := by
      exact ih (0 + v'.length) (by simp at hn; omega) [] v' rfl
    rw [show ([] : List Char) ++ [a] = [a] by rfl, show (y :: v') ++ [b] = y :: (v' ++ [b]) by rfl,
      lev_cons_cons, h1]
    rw [show (y :: v') = y :: v' by rfl, lev_cons_cons a y [] v']
    simp only [lev_nil_left, List.length_append, List.length_cons, List.length_nil]
    generalize (if a = b then (0 : ℕ) else 1) = ca
    generalize (if a = y then (0 : ℕ) else 1) = cay
    apply le_antisymm <;> simp only [le_min_iff, min_le_iff, add_le_add_iff_right] <;> omega
  | x :: u', [] =>
    have h1 : lev (u' ++ [a]) [b] =
        min (min (lev (u' ++ [a]) [] + 1) (lev u' [b] + 1))
          (lev u' [] + if a = b then 0 else 1) := by
      exact ih (u'.length + 0) (by simp at hn; omega) u' [] rfl
    rw [show ([] : List Char) ++ [b] = [b] by rfl, show (x :: u') ++ [a] = x :: (u' ++ [a]) by rfl,
      lev_cons_cons, h1]
    rw [lev_cons_cons x b u' []]
    simp only [lev_nil_right, List.length_append, List.length_cons, List.length_nil]
    generalize (if a = b then (0 : ℕ) else 1) = ca
    generalize (if x = b then (0 : ℕ) else 1) = cxb
    apply le_antisymm <;> simp only [le_min_iff, min_le_iff, add_le_add_iff_right] <;> omega
  | x :: u', y :: v' =>
    have hT1 := ih ((x :: u').length + v'.length) (by simp at hn ⊢; omega) (x :: u') v' rfl
    have hT2 := ih (u'.length + (y :: v').length) (by simp at hn ⊢; omega) u' (y :: v') rfl
    have hT3 := ih (u'.length + v'.length) (by simp at hn; omega) u' v' rfl
    simp only [List.cons_append] at hT1 hT2 hT3 ⊢
    rw [lev_cons_cons x y (u' ++ [a]) (v' ++ [b]), hT1, hT2, hT3,
      lev_cons_cons x y (u' ++ [a]) v', lev_cons_cons x y u' (v' ++ [b]),
      lev_cons_cons x y u' v']
    generalize (if a = b then (0 : ℕ) else 1) = ca
    generalize (if x = y then (0 : ℕ) else 1) = cx
    apply le_antisymm <;> simp only [le_min_iff, min_le_iff, add_le_add_iff_right] <;>
      refine ⟨⟨?_, ?_⟩, ?_⟩ <;> omega

/-- The Levenshtein distance is symmetric. -/
theorem lev_comm (u v : List Char) : lev u v = lev v u := by
  generalize hn : u.length + v.length = n
  induction n using Nat.strong_induction_on generalizing u v with
  | _ n ih =>
  match u, v with
  | [], v => simp
  | x :: u', [] => simp
  | x :: u', y :: v' =>
    rw [lev_cons_cons, lev_cons_cons]
    rw [ih (u'.length + (y :: v').length) (by simp at hn ⊢; omega) u' (y :: v') rfl,
      ih ((x :: u').length + v'.length) (by simp at hn ⊢; omega) (x :: u') v' rfl,
      ih (u'.length + v'.length) (by simp at hn; omega) u' v' rfl]
    have hcost : (if x = y then (0 : ℕ) else 1) = (if y = x then 0 else 1) := by
      by_cases h : x = y
      · simp [h]
      · simp [h, Ne.symm h]
    rw [hcost]
    generalize (if y = x then (0 : ℕ) else 1) = c
    apply le_antisymm <;> simp only [le_min_iff, min_le_iff, add_le_add_iff_right] <;> omega

/-- The Levenshtein distance is invariant under reversing both arguments. -/
theorem lev_reverse (u v : List Char) : lev u.reverse v.reverse = lev u v := by
  generalize hn : u.length + v.length = n
  induction n using Nat.strong_induction_on generalizing u v with
  | _ n ih =>
  match u, v with
  | [], v => simp
  | x :: u', [] => simp
  | x :: u', y :: v' =>
    rw [List.reverse_cons, List.reverse_cons, lev_append_append, lev_cons_cons]
    rw [show u'.reverse ++ [x] = (x :: u').reverse by simp,
      show v'.reverse ++ [y] = (y :: v').reverse by simp]
    rw [ih ((x :: u').length + v'.length) (by simp at hn ⊢; omega) (x :: u') v' rfl,
      ih (u'.length + (y :: v').length) (by simp at hn ⊢; omega) u' (y :: v') rfl,
      ih (u'.length + v'.length) (by simp at hn; omega) u' v' rfl]

/-- The Levenshtein distance is at most the larger length. -/
theorem lev_le_max (u v : List Char) : lev u v ≤ max u.length v.length := by
  generalize hn : u.length + v.length = n
  induction n using Nat.strong_induction_on generalizing u v with
  | _ n ih =>
  match u, v with
  | [], v => simp
  | x :: u', [] => simp
  | x :: u', y :: v' =>
    rw [lev_cons_cons]
    have h3 := ih (u'.length + v'.length) (by simp at hn; omega) u' v' rfl
    have hc : (if x = y then (0 : ℕ) else 1) ≤ 1 := by split <;> omega
    simp only [List.length_cons]
    omega

/-- The Levenshtein distance is at least the length difference. -/
theorem lev_length_sub_le (u v : List Char) : u.length - v.length ≤ lev u v := by
  generalize hn : u.length + v.length = n
  induction n using Nat.strong_induction_on generalizing u v with
  | _ n ih =>
  match u, v with
  | [], v => simp
  | x :: u', [] => simp
  | x :: u', y :: v' =>
    rw [lev_cons_cons]
    have h1 := ih ((x :: u').length + v'.length) (by simp at hn ⊢; omega) (x :: u') v' rfl
    have h2 := ih (u'.length + (y :: v').length) (by simp at hn ⊢; omega) u' (y :: v') rfl
    have h3 := ih (u'.length + v'.length) (by simp at hn; omega) u' v' rfl
    simp only [List.length_cons] at h1 h2 ⊢
    omega

theorem lev_self (u : List Char) : lev u u = 0 := by
  induction u with
  | nil => simp
  | cons x xs ihx =>
    rw [lev_cons_cons]
    simp [ihx]

/-- `lev u v = 0` forces the two lists to be equal. -/
theorem lev_eq_zero_iff (u v : List Char) : lev u v = 0 ↔ u = v := by
  constructor
  · intro h
    induction u generalizing v with
    | nil => cases v with
      | nil => rfl
      | cons y ys => simp at h
    | cons x xs ihx =>
      cases v with
      | nil => simp at h
      | cons y ys =>
        rw [lev_cons_cons] at h
        rcases Nat.min_eq_zero_iff.mp h with h' | h'
        · rcases Nat.min_eq_zero_iff.mp h' with h'' | h'' <;> omega
        · rcases Nat.add_eq_zero_iff.mp h' with ⟨h1, h2⟩
          have hxy : x = y := by by_contra hne; simp [hne] at h2
          rw [hxy, ihx ys h1]
  · rintro rfl
    exact lev_self u

/-! ### DP-row lemmas for `levenshtein_distance_bounded` -/

/-- The inner loop turns the row for `L` into the row for `c :: L`. -/
theorem levRowGo_spec (c : Char) (L : List Char) :
    ∀ (ss acc : List Char),
      levRowGo c ss (lev acc L :: (revPrefs acc ss).map (fun r => lev r L))
          (lev acc (c :: L)) =
        (revPrefs acc ss).map (fun r => lev r (c :: L))
  | [], acc => by simp [levRowGo, revPrefs]
  | s :: ss', acc => by
    simp only [revPrefs, List.map_cons, levRowGo]
    have hval : min (min (lev acc (c :: L) + 1) (lev (s :: acc) L + 1))
        (lev acc L + if s = c then 0 else 1) = lev (s :: acc) (c :: L) := by
      rw [lev_cons_cons s c acc L, min_comm (lev (s :: acc) L + 1) (lev acc (c :: L) + 1)]
    rw [hval, levRowGo_spec c L ss' (s :: acc)]

/-- One outer-loop iteration turns `specRow short L` into
`specRow short (c :: L)`. -/
theorem levRowNext_spec (short : List Char) (c : Char) (L : List Char) :
    levRowNext short c (specRow short L) L.length = specRow short (c :: L) := by
  have hhead : L.length + 1 = lev [] (c :: L) := by simp
  have hprev : lev [] (c :: L) = L.length + 1 := by simp
  unfold levRowNext specRow
  rw [show (L.length + 1) = lev ([] : List Char) (c :: L) from hhead]
  rw [show lev ([] : List Char) L :: (revPrefs [] short).map (fun r => lev r L) =
    specRow short L from rfl]
  unfold specRow
  rw [levRowGo_spec c L short []]

theorem revPrefs_map_length (ss : List Char) :
    ∀ acc, (revPrefs acc ss).map List.length =
      (List.range ss.length).map (fun i => acc.length + 1 + i) := by
  induction ss with
  | nil => intro acc; simp [revPrefs]
  | cons s ss' ih =>
    intro acc
    simp only [revPrefs, List.map_cons, List.length_cons, List.range_succ_eq_map,
      List.map_map, ih (s :: acc), Nat.add_zero]
    congr 1
    apply List.map_congr_left
    intro i _
    simp only [Function.comp_apply]
    omega

/-- The initial DP row `0, 1, …, short.length` is `specRow short []`. -/
theorem specRow_nil (short : List Char) :
    specRow short [] = List.range (short.length + 1) := by
  unfold specRow
  have h : (revPrefs [] short).map (fun r => lev r []) = (revPrefs [] short).map List.length := by
    apply List.map_congr_left
    intro r _
    simp
  rw [h, revPrefs_map_length short [], List.range_succ_eq_map]
  simp only [lev_nil_left, List.length_nil, List.map_map]
  congr 1
  apply List.map_congr_left
  intro i _
  simp only [Nat.succ_eq_add_one]
  omega

theorem getLastD_cons_map_revPrefs (L : List Char) :
    ∀ (ss acc : List Char) (d : ℕ),
      (lev acc L :: (revPrefs acc ss).map (fun r => lev r L)).getLastD d =
        lev (ss.reverse ++ acc) L
  | [], acc, d => by simp [revPrefs]
  | s :: ss', acc, d => by
    simp only [revPrefs, List.map_cons]
    rw [List.getLastD_cons, getLastD_cons_map_revPrefs L ss' (s :: acc)]
    simp

/-- The final entry of a DP row is the distance between `short.reverse`
(and hence, up to reversal, `short`) and the consumed part of `long`. -/
theorem specRow_getLastD (short L : List Char) :
    (specRow short L).getLastD 0 = lev short.reverse L := by
  unfold specRow
  rw [getLastD_cons_map_revPrefs L short []]
  simp

/-- Every reversed prefix of `short` appears in `acc :: revPrefs acc short`. -/
theorem revPrefs_mem_take (ss : List Char) :
    ∀ (acc : List Char) (i : ℕ), i ≤ ss.length →
      ((ss.take i).reverse ++ acc) ∈ acc :: revPrefs acc ss := by
  induction ss with
  | nil =>
    intro acc i hi
    simp at hi
    simp [hi, revPrefs]
  | cons s ss' ih =>
    intro acc i hi
    match i with
    | 0 => simp
    | i + 1 =>
      have h := ih (s :: acc) i (by simpa using hi)
      simp only [List.take_succ_cons, List.reverse_cons, List.append_assoc,
        List.singleton_append, revPrefs]
      right
      exact h

theorem foldl_min_le_init (l : List ℕ) : ∀ init, l.foldl min init ≤ init := by
  induction l with
  | nil => simp
  | cons x xs ih =>
    intro init
    calc xs.foldl min (min init x) ≤ min init x := ih (min init x)
    _ ≤ init := min_le_left _ _

theorem foldl_min_le_mem (l : List ℕ) : ∀ init x, x ∈ l → l.foldl min init ≤ x := by
  induction l with
  | nil => intro _ x h; simp at h
  | cons y ys ih =>
    intro init x hx
    rcases List.mem_cons.mp hx with rfl | hx'
    · calc ys.foldl min (min init x) ≤ min init x := foldl_min_le_init ys _
      _ ≤ x := min_le_right _ _
    · exact ih (min init y) x hx'

/-- Lower-bound justification for the early exit: extending the second
argument on the left cannot drop below the minimum over suffix distances. -/
theorem lev_suffix_min_le (L : List Char) (Q S : List Char) :
    ∃ i ≤ S.length, lev (S.drop i) L ≤ lev S (Q ++ L) := by
  generalize hn : Q.length + S.length = n
  induction n using Nat.strong_induction_on generalizing Q S with
  | _ n ih =>
  match Q, S with
  | [], S => exact ⟨0, Nat.zero_le _, by simp⟩
  | q :: Q', [] =>
    refine ⟨0, Nat.le_refl _, ?_⟩
    simp [List.length_append]
    omega
  | q :: Q', s :: S' =>
    obtain ⟨i1, hi1, hb1⟩ := ih (Q'.length + (s :: S').length) (by simp at hn ⊢; omega)
      Q' (s :: S') rfl
    obtain ⟨i2, hi2, hb2⟩ := ih ((q :: Q').length + S'.length) (by simp at hn ⊢; omega)
      (q :: Q') S' rfl
    obtain ⟨i3, hi3, hb3⟩ := ih (Q'.length + S'.length) (by simp at hn; omega)
      Q' S' rfl
    rw [show (q :: Q') ++ L = q :: (Q' ++ L) by rfl] at hb2 ⊢
    rw [lev_cons_cons s q S' (Q' ++ L)]
    rcases le_or_lt (lev S' (Q' ++ L) + if s = q then 0 else 1)
        (min (lev (s :: S') (Q' ++ L) + 1) (lev S' (q :: (Q' ++ L)) + 1)) with h | h
    · refine ⟨i3 + 1, by simpa using hi3, ?_⟩
      simp only [List.drop_succ_cons]
      have : (0 : ℕ) ≤ if s = q then 0 else 1 := Nat.zero_le _
      omega
    · rcases le_or_lt (lev (s :: S') (Q' ++ L) + 1) (lev S' (q :: (Q' ++ L)) + 1) with h2 | h2
      · exact ⟨i1, hi1, by omega⟩
      · refine ⟨i2 + 1, by simpa using hi2, ?_⟩
        simp only [List.drop_succ_cons]
        omega

/-- The outer loop either runs to completion, producing the final DP row, or
exits early, in which case the true distance genuinely exceeds the bound. -/
theorem levLoop_spec (short : List Char) (maxDist : ℕ) (rest : List Char) :
    ∀ Lrev : List Char,
      levLoop short maxDist rest Lrev.length (specRow short Lrev) =
          some (specRow short (rest.reverse ++ Lrev)) ∨
        (levLoop short maxDist rest Lrev.length (specRow short Lrev) = none ∧
          maxDist < lev short.reverse (rest.reverse ++ Lrev)) := by
  induction rest with
  | nil =>
    intro Lrev
    left
    simp [levLoop]
  | cons c cs ih =>
    intro Lrev
    have hrew : (c :: cs).reverse ++ Lrev = cs.reverse ++ (c :: Lrev) := by
      simp
    rw [hrew]
    have hcur : levRowNext short c (specRow short Lrev) Lrev.length =
        specRow short (c :: Lrev) := levRowNext_spec short c Lrev
    simp only [levLoop, hcur]
    by_cases hexit :
        maxDist < (specRow short (c :: Lrev)).foldl min (Lrev.length + 1)
    · right
      simp only [if_pos hexit, true_and]
      obtain ⟨i, hi, hbound⟩ := lev_suffix_min_le (c :: Lrev) cs.reverse short.reverse
      have hdrop : short.reverse.drop i =
          (short.take (short.length - i)).reverse := List.drop_reverse
      have hmem : lev (short.reverse.drop i) (c :: Lrev) ∈ specRow short (c :: Lrev) := by
        rw [hdrop]
        have hmem' := revPrefs_mem_take short [] (short.length - i) (Nat.sub_le _ _)
        rw [List.append_nil] at hmem'
        rcases List.mem_cons.mp hmem' with h0 | h0
        · rw [h0]
          exact List.mem_cons_self _ _
        · exact List.mem_cons_of_mem _ (List.mem_map_of_mem _ h0)
      have hfold := foldl_min_le_mem (specRow short (c :: Lrev)) (Lrev.length + 1)
        _ hmem
      omega
    · simp only [if_neg hexit]
      have := ih (c :: Lrev)
      simpa using this

/-- What `levenshtein_distance_bounded` computes, in the ordered case. -/
theorem lev_bounded_ordered (s l : List Char) (m : ℕ) :
    (if m < l.length - s.length then none
      else
        match levLoop s m l 0 (List.range (s.length + 1)) with
        | none => none
        | some prev =>
          let d := prev.getLastD 0
          if d ≤ m then some d else none) =
      if lev s l ≤ m then some (lev s l) else none := by
  by_cases hpre : m < l.length - s.length
  · have hlb : l.length - s.length ≤ lev s l := by
      rw [lev_comm]
      exact lev_length_sub_le l s
    rw [if_pos hpre, if_neg (by omega)]
  · rw [if_neg hpre]
    have hinit : List.range (s.length + 1) = specRow s [] := (specRow_nil s).symm
    have h0 : (0 : ℕ) = ([] : List Char).length := rfl
    rw [hinit, h0]
    rcases levLoop_spec s m l [] with h | ⟨h, hb⟩
    · rw [h]
      rw [List.append_nil] at h ⊢
      simp only [List.length_nil]
      rw [specRow_getLastD, lev_reverse]
    · rw [h]
      rw [List.append_nil, lev_reverse] at hb
      rw [if_neg (by omega)]

/-- `levenshtein_distance_bounded` returns the Levenshtein distance exactly
when it is within the bound, and `none` otherwise. -/
theorem levenshtein_distance_bounded_spec (a b : List Char) (m : ℕ) :
    levenshtein_distance_bounded a b m =
      if lev a b ≤ m then some (lev a b) else none := by
  unfold levenshtein_distance_bounded
  by_cases hab : a.length ≤ b.length
  · simp only [if_pos hab]
    exact lev_bounded_ordered a b m
  · simp only [if_neg hab]
    rw [lev_bounded_ordered b a m, lev_comm b a]

/-- Argument order never matters to the bounded distance. -/
theorem levenshtein_distance_bounded_comm (a b : List Char) (m : ℕ) :
    levenshtein_distance_bounded a b m = levenshtein_distance_bounded b a m := by
  rw [levenshtein_distance_bounded_spec, levenshtein_distance_bounded_spec, lev_comm]

/-- C2: `texts_are_similar a b t` holds iff `a = b`, or (when the shorter key
has fewer than 6 characters) the keys have equal character length and
Levenshtein distance at most 1, or (when the shorter key has at least 6
characters) `max_dist = ceil((1 - t) * max_len)` is nonzero, the Levenshtein
distance `d` satisfies `d ≤ max_dist`, and `1 - d / max_len ≥ t` up to the
`1e-9` epsilon.  In particular short keys of unequal lengths are never
similar. -/
theorem c2_texts_are_similar_spec (a b : List Char) (t : ℚ) :
    texts_are_similar a b t = true ↔
      a = b ∨
      (min a.length b.length < 6 ∧ a.length = b.length ∧ lev a b ≤ 1) ∨
      (6 ≤ min a.length b.length ∧
        ⌈(1 - t) * ((max a.length b.length : ℕ) : ℚ)⌉ ≠ 0 ∧
        (lev a b : ℤ) ≤ ⌈(1 - t) * ((max a.length b.length : ℕ) : ℚ)⌉ ∧
        t ≤ 1 - (lev a b : ℚ) / ((max a.length b.length : ℕ) : ℚ) + 1 / 1000000000) := by
  by_cases heq : a = b
  · simp [texts_are_similar, heq]
  · simp only [texts_are_similar, if_neg heq]
    by_cases hshort : min a.length b.length < 6
    · simp only [if_pos hshort]
      by_cases hlen : a.length = b.length
      · rw [if_neg (fun h => h hlen), levenshtein_distance_bounded_spec a b 1]
        by_cases hd : lev a b ≤ 1
        · simp only [if_pos hd]
          simp [heq, hshort, hlen, hd]
          omega
        · simp only [if_neg hd]
          simp [heq, hshort, hlen, hd]
          omega
      · rw [if_pos hlen]
        simp [heq, hshort, hlen]
        omega
    · -- long-text path: 6 ≤ min length
      simp only [if_neg hshort]
      have hmin6 : 6 ≤ min a.length b.length := by omega
      have hn6 : 6 ≤ max a.length b.length := le_trans hmin6 min_le_max
      have hnpos : (0 : ℚ) < ((max a.length b.length : ℕ) : ℚ) := by
        exact_mod_cast Nat.lt_of_lt_of_le (by norm_num) hn6
      have hlev_le : lev a b ≤ max a.length b.length := lev_le_max a b
      rcases le_or_lt 0 t with h0 | h0
      · rcases le_or_lt t 1 with h1 | h1
        · -- 0 ≤ t ≤ 1 : the clamp is the identity
          have hcl : clamp_f64 t 0 1 = t := by
            unfold clamp_f64
            rw [max_eq_left h0, min_eq_left h1]
          rw [hcl]
          have hcm0 : (0 : ℤ) ≤ ⌈(1 - t) * ((max a.length b.length : ℕ) : ℚ)⌉ :=
            Int.ceil_nonneg (mul_nonneg (by linarith) (by positivity))
          by_cases hz : (⌈(1 - t) * ((max a.length b.length : ℕ) : ℚ)⌉).toNat = 0
          · have hczero : ⌈(1 - t) * ((max a.length b.length : ℕ) : ℚ)⌉ = 0 := by omega
            rw [if_pos hz]
            apply iff_of_false (by simp)
            rintro (h | ⟨h, _⟩ | ⟨_, hne, _, _⟩)
            · exact heq h
            · omega
            · exact hne hczero
          · rw [if_neg hz,
              levenshtein_distance_bounded_spec a b
                (⌈(1 - t) * ((max a.length b.length : ℕ) : ℚ)⌉).toNat]
            have hcne : ⌈(1 - t) * ((max a.length b.length : ℕ) : ℚ)⌉ ≠ 0 := by omega
            by_cases hdd :
                lev a b ≤ (⌈(1 - t) * ((max a.length b.length : ℕ) : ℚ)⌉).toNat
            · have hddz :
                  (lev a b : ℤ) ≤ ⌈(1 - t) * ((max a.length b.length : ℕ) : ℚ)⌉ := by
                omega
              simp only [if_pos hdd, decide_eq_true_eq, ge_iff_le]
              constructor
              · intro h
                exact Or.inr (Or.inr ⟨hmin6, hcne, hddz, h⟩)
              · rintro (h | ⟨h, _⟩ | ⟨_, _, _, h⟩)
                · exact absurd h heq
                · omega
                · exact h
            · have hddz :
                  ¬ (lev a b : ℤ) ≤ ⌈(1 - t) * ((max a.length b.length : ℕ) : ℚ)⌉ := by
                omega
              simp only [if_neg hdd]
              apply iff_of_false (by simp)
              rintro (h | ⟨h, _⟩ | ⟨_, _, hle, _⟩)
              · exact heq h
              · omega
              · exact hddz hle
        · -- 1 < t : the clamp is 1, max_dist = 0, never similar
          have hcl : clamp_f64 t 0 1 = 1 := by
            unfold clamp_f64
            rw [max_eq_left (by linarith), min_eq_right (le_of_lt h1)]
          rw [hcl]
          have hc0 : ⌈(1 - (1:ℚ)) * ((max a.length b.length : ℕ) : ℚ)⌉ = 0 := by
            norm_num
          have hcnp : ⌈(1 - t) * ((max a.length b.length : ℕ) : ℚ)⌉ ≤ 0 := by
            rw [Int.ceil_le]
            have hx : (0:ℚ) ≤ ((max a.length b.length : ℕ) : ℚ) := le_of_lt hnpos
            push_cast at hx ⊢
            nlinarith [hx]
          rw [hc0]
          simp only [Int.toNat_zero, if_pos rfl]
          constructor
          · intro h
            exact absurd h (by simp)
          · rintro (h | ⟨h, _⟩ | ⟨_, hne, hle, _⟩)
            · exact absurd h heq
            · omega
            · have hge : (0 : ℤ) ≤ (lev a b : ℤ) := by positivity
              omega
      · -- t < 0 : the clamp is 0, always similar on the long path
        have hcl : clamp_f64 t 0 1 = 0 := by
          unfold clamp_f64
          rw [max_eq_right (le_of_lt h0), min_eq_left (by norm_num)]
        rw [hcl]
        have hmd : (⌈(1 - (0:ℚ)) * ((max a.length b.length : ℕ) : ℚ)⌉).toNat =
            max a.length b.length := by
          rw [show (1 - (0:ℚ)) = 1 by norm_num, one_mul, Int.ceil_natCast,
            Int.toNat_natCast]
        rw [hmd, if_neg (by omega),
          levenshtein_distance_bounded_spec a b (max a.length b.length),
          if_pos hlev_le]
        have hratio : (0:ℚ) ≤ 1 - (lev a b : ℚ) / ((max a.length b.length : ℕ) : ℚ) := by
          have hd1 : (lev a b : ℚ) / ((max a.length b.length : ℕ) : ℚ) ≤ 1 := by
            rw [div_le_one hnpos]
            exact_mod_cast hlev_le
          linarith
        have hcmn : ((max a.length b.length : ℕ) : ℤ) ≤
            ⌈(1 - t) * ((max a.length b.length : ℕ) : ℚ)⌉ := by
          calc ((max a.length b.length : ℕ) : ℤ) =
              ⌈((max a.length b.length : ℕ) : ℚ)⌉ := (Int.ceil_natCast _).symm
          _ ≤ ⌈(1 - t) * ((max a.length b.length : ℕ) : ℚ)⌉ := by
            apply Int.ceil_mono
            nlinarith
        have hddz : (lev a b : ℤ) ≤ ⌈(1 - t) * ((max a.length b.length : ℕ) : ℚ)⌉ := by
          have hc : (lev a b : ℤ) ≤ ((max a.length b.length : ℕ) : ℤ) := by
            exact_mod_cast hlev_le
          omega
        have hcne : ⌈(1 - t) * ((max a.length b.length : ℕ) : ℚ)⌉ ≠ 0 := by omega
        simp only [decide_eq_true_eq, ge_iff_le]
        constructor
        · intro _
          right; right
          exact ⟨hmin6, hcne, hddz, by linarith⟩
        · intro _
          linarith

/-- C10: the approximate text matcher is symmetric — swapping the two keys
never changes the verdict, at any threshold. -/
theorem c10_texts_are_similar_symm (a b : List Char) (t : ℚ) :
    texts_are_similar a b t = texts_are_similar b a t := by
  unfold texts_are_similar
  by_cases heq : a = b
  · simp [heq]
  · have hne : ¬ b = a := fun h => heq h.symm
    simp only [if_neg heq, if_neg hne]
    rw [min_comm b.length a.length, max_comm b.length a.length]
    simp only [levenshtein_distance_bounded_comm b a]
    by_cases hm : min a.length b.length < 6
    · rw [if_pos hm, if_pos hm]
      by_cases hlen : a.length = b.length
      · rw [if_neg (show ¬a.length ≠ b.length from fun h => h hlen),
          if_neg (show ¬b.length ≠ a.length from fun h => h hlen.symm)]
      · rw [if_pos (show a.length ≠ b.length from hlen),
          if_pos (show b.length ≠ a.length from fun h => hlen h.symm)]
    · rw [if_neg hm, if_neg hm]



theorem char_toNat_ofNat (n : ℕ) (h : n < 0xd800) : (Char.ofNat n).toNat = n := by
  rw [Char.ofNat, dif_pos (Or.inl (by exact_mod_cast h))]
  simp [Char.ofNatAux, Char.toNat, UInt32.toNat, UInt32.ofNat', BitVec.toNat_ofNatLt]

theorem toLower_eq_self (c : Char) (h : ¬(65 ≤ c.toNat ∧ c.toNat ≤ 90)) :
    Char.toLower c = c := by
  simp only [Char.toLower]
  rw [if_neg h]

theorem toLower_toNat (c : Char) :
    (Char.toLower c).toNat =
      if 65 ≤ c.toNat ∧ c.toNat ≤ 90 then c.toNat + 32 else c.toNat := by
  by_cases h : 65 ≤ c.toNat ∧ c.toNat ≤ 90
  · rw [if_pos h]
    simp only [Char.toLower]
    rw [if_pos h]
    exact char_toNat_ofNat _ (by omega)
  · rw [if_neg h, toLower_eq_self c h]

theorem ws_false_alpha (c : Char) (h1 : 65 ≤ c.toNat) (h2 : c.toNat ≤ 122) :
    isRustWhitespace c = false := by
  by_contra hc
  rw [Bool.not_eq_false, isRustWhitespace, List.contains_iff_exists_mem_beq] at hc
  obtain ⟨b, hb, hbeq⟩ := hc
  have hcb : c.toNat = b := by simpa using hbeq
  simp at hb
  omega

theorem ap_false_alpha (c : Char)
    (h : (65 ≤ c.toNat ∧ c.toNat ≤ 90) ∨ (97 ≤ c.toNat ∧ c.toNat ≤ 122)) :
    isAsciiPunctuation c = false := by
  rw [Bool.eq_false_iff]
  intro hc
  rw [isAsciiPunctuation] at hc
  simp only [Bool.or_eq_true, Bool.and_eq_true, decide_eq_true_eq] at hc
  omega

theorem cjk_contains_false (c : Char) (h : c.toNat ≤ 122) :
    (['，', '。', '！', '？', '：', '；', '、', '“', '”', '‘', '’',
      '《', '》', '（', '）', '【', '】', '—', '…', '～', '·'].contains c) = false := by
  by_contra hc
  rw [Bool.not_eq_false, List.contains_iff_exists_mem_beq] at hc
  obtain ⟨b, hb, hbeq⟩ := hc
  have hcb : c = b := eq_of_beq hbeq
  subst hcb
  fin_cases hb <;> exact absurd h (by decide)

theorem ws_toLower (c : Char) :
    isRustWhitespace (Char.toLower c) = isRustWhitespace c := by
  by_cases h : 65 ≤ c.toNat ∧ c.toNat ≤ 90
  · have ht : (Char.toLower c).toNat = c.toNat + 32 := by
      rw [toLower_toNat, if_pos h]
    rw [ws_false_alpha (Char.toLower c) (by omega) (by omega),
      ws_false_alpha c (by omega) (by omega)]
  · rw [toLower_eq_self c h]

theorem edge_toLower (c : Char) :
    is_edge_punctuation (Char.toLower c) = is_edge_punctuation c := by
  by_cases h : 65 ≤ c.toNat ∧ c.toNat ≤ 90
  · have ht : (Char.toLower c).toNat = c.toNat + 32 := by
      rw [toLower_toNat, if_pos h]
    rw [is_edge_punctuation, is_edge_punctuation,
      ws_false_alpha (Char.toLower c) (by omega) (by omega),
      ws_false_alpha c (by omega) (by omega),
      ap_false_alpha (Char.toLower c) (by omega),
      ap_false_alpha c (by omega),
      cjk_contains_false (Char.toLower c) (by omega),
      cjk_contains_false c (by omega)]
  · rw [toLower_eq_self c h]

theorem toLower_idem (c : Char) :
    Char.toLower (Char.toLower c) = Char.toLower c := by
  by_cases h : 65 ≤ c.toNat ∧ c.toNat ≤ 90
  · apply toLower_eq_self
    rw [toLower_toNat, if_pos h]
    omega
  · rw [toLower_eq_self c h, toLower_eq_self c h]



theorem dropWhile_headNot (p : Char → Bool) (s : List Char) :
    headNot p (s.dropWhile p) := by
  induction s with
  | nil => intro c h; simp at h
  | cons x xs ih =>
    intro c h
    rw [List.dropWhile_cons] at h
    by_cases hp : p x = true
    · rw [if_pos hp] at h
      exact ih c h
    · rw [if_neg hp] at h
      simp only [List.head?_cons, Option.some.injEq] at h
      rw [← h]
      exact Bool.eq_false_iff.mpr hp

theorem dropWhile_eq_self_of_headNot (p : Char → Bool) (s : List Char)
    (h : headNot p s) : s.dropWhile p = s := by
  cases s with
  | nil => rfl
  | cons x xs =>
    rw [List.dropWhile_cons, if_neg]
    rw [h x rfl]
    simp

theorem trimEnd_eq_self (p : Char → Bool) (s : List Char) (h : lastNot p s) :
    trimEnd p s = s := by
  unfold trimEnd
  have hh : headNot p s.reverse := by
    intro c hc
    rw [List.head?_reverse] at hc
    exact h c hc
  rw [dropWhile_eq_self_of_headNot p _ hh, List.reverse_reverse]

theorem trimMatches_eq_self (p : Char → Bool) (s : List Char)
    (hh : headNot p s) (hl : lastNot p s) : trimMatches p s = s := by
  unfold trimMatches trimStart
  rw [dropWhile_eq_self_of_headNot p s hh, trimEnd_eq_self p s hl]

theorem prefix_head_eq {l₁ l₂ : List Char} (hp : l₁ <+: l₂) {c : Char}
    (h : l₁.head? = some c) : l₂.head? = some c := by
  obtain ⟨t, rfl⟩ := hp
  cases l₁ with
  | nil => simp at h
  | cons x xs => simpa using h

theorem trimEnd_initial (p : Char → Bool) (x : List Char) : trimEnd p x <+: x := by
  obtain ⟨t, ht⟩ := List.dropWhile_suffix (l := x.reverse) p
  refine ⟨t.reverse, ?_⟩
  have hrev := congrArg List.reverse ht
  rw [List.reverse_append, List.reverse_reverse] at hrev
  exact hrev

theorem trimMatches_within (p : Char → Bool) (s : List Char) :
    trimMatches p s <:+: s := by
  unfold trimMatches trimStart
  exact (trimEnd_initial p (s.dropWhile p)).isInfix.trans
    (List.dropWhile_suffix p).isInfix

theorem trimMatches_headNot (p : Char → Bool) (s : List Char) :
    headNot p (trimMatches p s) := by
  intro c h
  unfold trimMatches trimStart at h
  exact dropWhile_headNot p s c
    (prefix_head_eq (trimEnd_initial p (s.dropWhile p)) h)

theorem trimMatches_lastNot (p : Char → Bool) (s : List Char) :
    lastNot p (trimMatches p s) := by
  intro c h
  unfold trimMatches trimStart trimEnd at h
  rw [List.getLast?_reverse] at h
  exact dropWhile_headNot p _ c h



theorem noWsRun_tail_headNot {c : Char} {rest : List Char}
    (hrun : noWsRun (c :: rest)) (hc : isRustWhitespace c = true) :
    headNot isRustWhitespace rest := by
  intro y hy
  cases rest with
  | nil => simp at hy
  | cons z t =>
    simp only [List.head?_cons, Option.some.injEq] at hy
    subst hy
    exact (List.chain'_cons.mp hrun).1 hc

theorem collapseGo_eq_append :
    ∀ (r : List Char), wsOnlySpace r → noWsRun r →
      ∀ (out : List Char) (lws : Bool), out ≠ [] →
      (lws = true → headNot isRustWhitespace r) →
      collapseGo r out lws = out ++ r := by
  intro r
  induction r with
  | nil =>
    intro _ _ out lws _ _
    simp [collapseGo]
  | cons c rest ih =>
    intro hws hrun out lws hout hlws
    have hws2 : wsOnlySpace rest := fun d hd => hws d (List.mem_cons_of_mem c hd)
    have hrun2 : noWsRun rest := hrun.tail
    by_cases hc : isRustWhitespace c = true
    · have hsp : c = ' ' := hws c (List.mem_cons_self c rest) hc
      have hlf : lws = false := by
        cases lws
        · rfl
        · have hwsf := hlws rfl c rfl
          rw [hc] at hwsf
          exact absurd hwsf (by simp)
      subst hlf
      simp only [collapseGo, hc, if_true]
      have hbr : (!false && !out.isEmpty) = true := by
        simp [List.isEmpty_iff, hout]
      rw [hbr, if_pos rfl]
      rw [ih hws2 hrun2 (out ++ [' ']) true (by simp)
        (fun _ => noWsRun_tail_headNot hrun hc)]
      rw [hsp, List.append_assoc]
      rfl
    · rw [Bool.not_eq_true] at hc
      simp only [collapseGo, hc]
      rw [ih hws2 hrun2 (out ++ [c]) false (by simp)
        (by intro h; exact absurd h (by simp))]
      rw [List.append_assoc]
      rfl

theorem collapse_eq_self (r : List Char) (hws : wsOnlySpace r) (hrun : noWsRun r)
    (hh : headNot isRustWhitespace r) (hl : lastNot isRustWhitespace r) :
    collapse_whitespace r = r := by
  unfold collapse_whitespace
  cases r with
  | nil => rfl
  | cons c rest =>
    have hc : isRustWhitespace c = false := hh c rfl
    have hws2 : wsOnlySpace rest := fun d hd => hws d (List.mem_cons_of_mem c hd)
    have hrun2 : noWsRun rest := hrun.tail
    have h1 : collapseGo (c :: rest) [] false = c :: rest := by
      simp only [collapseGo, hc]
      rw [show ([] : List Char) ++ [c] = [c] from rfl]
      rw [collapseGo_eq_append rest hws2 hrun2 [c] false (by simp)
        (by intro h; exact absurd h (by simp))]
      rfl
    rw [h1, trimMatches_eq_self _ _ hh hl]

theorem collapseGo_wsOnlySpace :
    ∀ (r out : List Char) (lws : Bool), wsOnlySpace out →
      wsOnlySpace (collapseGo r out lws) := by
  intro r
  induction r with
  | nil => intro out lws h; simpa [collapseGo] using h
  | cons c rest ih =>
    intro out lws hout
    by_cases hc : isRustWhitespace c = true
    · simp only [collapseGo, hc, if_true]
      apply ih
      by_cases hbr : (!lws && !out.isEmpty) = true
      · rw [if_pos hbr]
        intro d hd hdws
        rcases List.mem_append.mp hd with h1 | h1
        · exact hout d h1 hdws
        · simpa using h1
      · rw [if_neg hbr]
        exact hout
    · rw [Bool.not_eq_true] at hc
      simp only [collapseGo, hc]
      apply ih
      intro d hd hdws
      rcases List.mem_append.mp hd with h1 | h1
      · exact hout d h1 hdws
      · rw [List.mem_singleton.mp h1] at hdws
        rw [hc] at hdws
        exact absurd hdws (by simp)

theorem collapseGo_noWsRun :
    ∀ (r out : List Char) (lws : Bool), noWsRun out →
      (lws = false → lastNot isRustWhitespace out) →
      noWsRun (collapseGo r out lws) := by
  intro r
  induction r with
  | nil => intro out lws h _; simpa [collapseGo] using h
  | cons c rest ih =>
    intro out lws hout hlast
    by_cases hc : isRustWhitespace c = true
    · simp only [collapseGo, hc, if_true]
      by_cases hbr : (!lws && !out.isEmpty) = true
      · rw [if_pos hbr]
        have hlf : lws = false := by
          cases lws
          · rfl
          · simp at hbr
        apply ih
        · unfold noWsRun at hout ⊢
          rw [List.chain'_append]
          refine ⟨hout, by simp, ?_⟩
          intro x hx y hy hxws
          exact absurd hxws
            (by rw [hlast hlf x (Option.mem_def.mp hx)]; simp)
        · intro h
          exact absurd h (by simp)
      · rw [if_neg hbr]
        apply ih
        · exact hout
        · intro h
          exact absurd h (by simp)
    · rw [Bool.not_eq_true] at hc
      simp only [collapseGo, hc]
      apply ih
      · unfold noWsRun at hout ⊢
        rw [List.chain'_append]
        refine ⟨hout, by simp, ?_⟩
        intro x hx y hy hxws
        simp only [List.head?_cons, Option.mem_def, Option.some.injEq] at hy
        rw [← hy]
        exact hc
      · intro _ d hd
        rw [List.getLast?_concat] at hd
        simp only [Option.some.injEq] at hd
        rw [← hd]
        exact hc



theorem collapse_wsOnlySpace (x : List Char) : wsOnlySpace (collapse_whitespace x) := by
  intro c hc
  exact collapseGo_wsOnlySpace x [] false (by intro d hd; simp at hd) c
    ((trimMatches_within isRustWhitespace _).subset hc)

theorem collapse_noWsRun (x : List Char) : noWsRun (collapse_whitespace x) := by
  have h := collapseGo_noWsRun x [] false (by simp [noWsRun])
    (by intro _ d hd; simp at hd)
  exact List.Chain'.infix h (trimMatches_within isRustWhitespace _)

theorem collapse_headNot_ws (x : List Char) :
    headNot isRustWhitespace (collapse_whitespace x) :=
  trimMatches_headNot isRustWhitespace _

theorem collapse_lastNot_ws (x : List Char) :
    lastNot isRustWhitespace (collapse_whitespace x) :=
  trimMatches_lastNot isRustWhitespace _

theorem edge_false_ws_false (c : Char) (h : is_edge_punctuation c = false) :
    isRustWhitespace c = false := by
  rw [is_edge_punctuation] at h
  simp only [Bool.or_eq_false_iff] at h
  exact h.1.1

theorem toLower_space : Char.toLower ' ' = ' ' := by decide

theorem to_lowercase_idem (s : List Char) :
    to_lowercase (to_lowercase s) = to_lowercase s := by
  unfold to_lowercase
  rw [List.map_map]
  apply List.map_congr_left
  intro c _
  exact toLower_idem c

theorem to_lowercase_wsOnlySpace {s : List Char} (h : wsOnlySpace s) :
    wsOnlySpace (to_lowercase s) := by
  intro c hc hcws
  obtain ⟨d, hd, rfl⟩ := List.mem_map.mp hc
  rw [ws_toLower d] at hcws
  rw [h d hd hcws, toLower_space]

theorem to_lowercase_noWsRun {s : List Char} (h : noWsRun s) :
    noWsRun (to_lowercase s) := by
  unfold noWsRun at h ⊢
  unfold to_lowercase
  rw [List.chain'_map]
  apply h.imp
  intro a b hab
  rw [ws_toLower a, ws_toLower b]
  exact hab

theorem to_lowercase_headNot_edge {s : List Char}
    (h : headNot is_edge_punctuation s) :
    headNot is_edge_punctuation (to_lowercase s) := by
  intro c hc
  unfold to_lowercase at hc
  rw [List.head?_map] at hc
  obtain ⟨d, hd, rfl⟩ := Option.map_eq_some'.mp hc
  rw [edge_toLower d]
  exact h d hd

theorem to_lowercase_lastNot_edge {s : List Char}
    (h : lastNot is_edge_punctuation s) :
    lastNot is_edge_punctuation (to_lowercase s) := by
  intro c hc
  unfold to_lowercase at hc
  rw [List.getLast?_map] at hc
  obtain ⟨d, hd, rfl⟩ := Option.map_eq_some'.mp hc
  rw [edge_toLower d]
  exact h d hd

theorem normalize_wsOnlySpace (x : List Char) :
    wsOnlySpace (normalize_text_for_compare x) := by
  unfold normalize_text_for_compare
  apply to_lowercase_wsOnlySpace
  intro c hc
  exact collapse_wsOnlySpace x c
    ((trimMatches_within is_edge_punctuation _).subset hc)

theorem normalize_noWsRun (x : List Char) :
    noWsRun (normalize_text_for_compare x) := by
  unfold normalize_text_for_compare
  apply to_lowercase_noWsRun
  exact List.Chain'.infix (collapse_noWsRun x) (trimMatches_within is_edge_punctuation _)

theorem normalize_headNot_edge (x : List Char) :
    headNot is_edge_punctuation (normalize_text_for_compare x) := by
  unfold normalize_text_for_compare
  exact to_lowercase_headNot_edge (trimMatches_headNot is_edge_punctuation _)

theorem normalize_lastNot_edge (x : List Char) :
    lastNot is_edge_punctuation (normalize_text_for_compare x) := by
  unfold normalize_text_for_compare
  exact to_lowercase_lastNot_edge (trimMatches_lastNot is_edge_punctuation _)

/-- C9: text normalization is idempotent. -/
theorem c9_normalize_idempotent (x : List Char) :
    normalize_text_for_compare (normalize_text_for_compare x) =
      normalize_text_for_compare x := by
  have hws := normalize_wsOnlySpace x
  have hrun := normalize_noWsRun x
  have hhe := normalize_headNot_edge x
  have hle := normalize_lastNot_edge x
  have hhw : headNot isRustWhitespace (normalize_text_for_compare x) :=
    fun c h => edge_false_ws_false c (hhe c h)
  have hlw : lastNot isRustWhitespace (normalize_text_for_compare x) :=
    fun c h => edge_false_ws_false c (hle c h)
  conv_lhs => rw [normalize_text_for_compare]
  rw [collapse_eq_self _ hws hrun hhw hlw, trimMatches_eq_self _ _ hhe hle]
  rw [show normalize_text_for_compare x =
    to_lowercase (trimMatches is_edge_punctuation (collapse_whitespace x)) from rfl]
  rw [to_lowercase_idem]


/-! ## Post-processing and subtitle-generation lemmas -/

deriving instance DecidableEq for Except

theorem mergeStep_eq_cases (thr : ℚ) (g d : ℕ) (acc : List OcrSubtitleEntry)
    (sub : OcrSubtitleEntry) :
    mergeStep thr g d acc sub = acc ++ [sub] ∨
    ∃ prev, acc.getLast? = some prev ∧
      mergeStep thr g d acc sub = acc.dropLast ++
        [{ id := prev.id,
           text := if sub.confidence > prev.confidence + 1 / 1000000000 ∨
               (|sub.confidence - prev.confidence| ≤ 1 / 1000000000 ∧
                 utf8Len prev.text < utf8Len sub.text)
             then sub.text else prev.text,
           start_time := prev.start_time,
           end_time := max prev.end_time sub.end_time,
           confidence := max prev.confidence sub.confidence }] := by
  unfold mergeStep
  rcases hopt : acc.getLast? with _ | prev
  · left
    rfl
  · dsimp only
    split
    · right
      exact ⟨prev, rfl, rfl⟩
    · left
      rfl

theorem mergeStep_mem (thr : ℚ) (g d : ℕ) (acc : List OcrSubtitleEntry)
    (sub s : OcrSubtitleEntry) (hs : s ∈ mergeStep thr g d acc sub) :
    s ∈ acc ∨ s = sub ∨
    ∃ prev, acc.getLast? = some prev ∧ s.start_time = prev.start_time ∧
      s.end_time = max prev.end_time sub.end_time ∧
      (s.text = prev.text ∨ s.text = sub.text) ∧
      s.confidence = max prev.confidence sub.confidence := by
  rcases mergeStep_eq_cases thr g d acc sub with heq | ⟨prev, hopt, heq⟩
  · rw [heq] at hs
    simp only [List.mem_append, List.mem_singleton] at hs
    rcases hs with hs | hs
    · exact Or.inl hs
    · exact Or.inr (Or.inl hs)
  · rw [heq] at hs
    simp only [List.mem_append, List.mem_singleton] at hs
    rcases hs with hs | hs
    · exact Or.inl ((List.dropLast_sublist acc).subset hs)
    · subst hs
      refine Or.inr (Or.inr ⟨prev, hopt, rfl, rfl, ?_, rfl⟩)
      split
      · exact Or.inr rfl
      · exact Or.inl rfl

theorem buildFold_end_gt_start (fps : ℚ) :
    ∀ (segs : List SubtitleSegment) (acc : List OcrSubtitleEntry),
      (∀ s ∈ acc, s.start_time < s.end_time) →
      ∀ s ∈ segs.foldl (buildStep fps) acc, s.start_time < s.end_time := by
  intro segs
  induction segs with
  | nil => intro acc hacc; simpa using hacc
  | cons seg rest ih =>
    intro acc hacc
    rw [List.foldl_cons]
    apply ih
    intro s hs
    unfold buildStep at hs
    match hsel : select_segment_text seg.candidates with
    | none =>
      rw [hsel] at hs
      exact hacc s hs
    | some (text, confidence) =>
      rw [hsel] at hs
      simp only [List.mem_append, List.mem_singleton] at hs
      rcases hs with hs | hs
      · exact hacc s hs
      · subst hs
        simp only []
        by_cases he : frame_end_time_ms seg.last_seen_frame_index fps ≤ seg.start_time
        · rw [if_pos he]
          omega
        · rw [if_neg he]
          omega

theorem mergeFold_end_gt_start (thr : ℚ) (g d : ℕ) :
    ∀ (subs acc : List OcrSubtitleEntry),
      (∀ s ∈ subs, s.start_time < s.end_time) →
      (∀ s ∈ acc, s.start_time < s.end_time) →
      ∀ s ∈ subs.foldl (mergeStep thr g d) acc, s.start_time < s.end_time := by
  intro subs
  induction subs with
  | nil => intro acc _ hacc; simpa using hacc
  | cons sub rest ih =>
    intro acc hsubs hacc
    rw [List.foldl_cons]
    apply ih
    · exact fun s hs => hsubs s (List.mem_cons_of_mem _ hs)
    · intro s hs
      rcases mergeStep_mem thr g d acc sub s hs with h | h | ⟨prev, hopt, hst, hen, _, _⟩
      · exact hacc s h
      · subst h; exact hsubs s (List.mem_cons_self _ _)
      · have hprev := hacc prev (List.mem_of_getLast?_eq_some hopt)
        rw [hst, hen]
        exact lt_of_lt_of_le hprev (le_max_left _ _)

theorem post_process_end_gt_start (f m : Bool) (thr : ℚ) (g d : ℕ)
    (subs : List OcrSubtitleEntry)
    (hsubs : ∀ s ∈ subs, s.start_time < s.end_time) :
    ∀ s ∈ post_process f m thr g d subs, s.start_time < s.end_time := by
  intro s hs
  unfold post_process at hs
  have hfil : ∀ t ∈ (if f = true then subs.filter (fun s => !text_looks_url_like s.text)
      else subs), t.start_time < t.end_time := by
    intro t ht
    split at ht
    · exact hsubs t (List.mem_of_mem_filter ht)
    · exact hsubs t ht
  by_cases hm : m = true ∧
      1 < (if f = true then subs.filter (fun s => !text_looks_url_like s.text)
        else subs).length
  · rw [if_pos hm] at hs
    simp only [List.mem_mapIdx] at hs
    obtain ⟨i, hi, rfl⟩ := hs
    have hP := mergeFold_end_gt_start thr g d
      (if f = true then subs.filter (fun s => !text_looks_url_like s.text) else subs) []
      hfil (by simp) _ (List.getElem_mem hi)
    exact hP
  · rw [if_neg hm] at hs
    exact hfil s hs

theorem post_process_nil (f m : Bool) (thr : ℚ) (g d : ℕ) :
    post_process f m thr g d [] = [] := by
  unfold post_process
  cases f <;> simp

/-- C3: every cue returned by `generate_subtitles_core` satisfies
`end_time > start_time`: the degenerate case is forced to `start_time + 1`,
and the adjacency-merge pass preserves the invariant. -/
theorem c3_end_gt_start (frames : List OcrFrameResult) (fps minConf : ℚ)
    (cleanup : OcrSubtitleCleanupOptions) (subs : List OcrSubtitleEntry)
    (hok : generate_subtitles_core frames fps minConf cleanup = Except.ok subs) :
    ∀ s ∈ subs, s.start_time < s.end_time := by
  unfold generate_subtitles_core at hok
  by_cases hfps : fps ≤ 0
  · rw [if_pos hfps] at hok
    cases hok
  · rw [if_neg hfps] at hok
    simp only [Except.ok.injEq] at hok
    subst hok
    apply post_process_end_gt_start
    intro s hs
    exact buildFold_end_gt_start _ _ [] (by simp) s hs

unseal Rat.mul Rat.inv Rat.add Rat.sub in
theorem c3_witness :
    ((⟨subtitle_id 1, "Single frame".toList, 0, 1000, 99/100⟩ :
        OcrSubtitleEntry)).start_time <
      ((⟨subtitle_id 1, "Single frame".toList, 0, 1000, 99/100⟩ :
        OcrSubtitleEntry)).end_time :=
  c3_end_gt_start [⟨0, 0, "Single frame".toList, 99/100⟩] 1 (1/2)
    ⟨true, 92/100, 250, 500, true⟩ _ (by decide) _ (List.mem_singleton.mpr rfl)

/-- C8: non-positive fps is rejected with the FPS error, and positive fps on
an empty frame-result list yields an empty cue list. -/
theorem c8_fps_and_empty (frames : List OcrFrameResult) (fps minConf : ℚ)
    (cleanup : OcrSubtitleCleanupOptions) :
    (fps ≤ 0 →
      generate_subtitles_core frames fps minConf cleanup =
        Except.error "FPS must be greater than 0") ∧
    (0 < fps →
      generate_subtitles_core [] fps minConf cleanup = Except.ok []) := by
  constructor
  · intro h
    unfold generate_subtitles_core
    rw [if_pos h]
  · intro h
    unfold generate_subtitles_core
    rw [if_neg (not_le.mpr h)]
    show Except.ok (post_process cleanup.filter_url_like cleanup.merge_similar
      (if cleanup.merge_similar = true then
        clamp_f64 cleanup.similarity_threshold (80/100) (98/100) else 1)
      cleanup.max_gap_ms cleanup.min_cue_duration_ms []) = Except.ok []
    rw [post_process_nil]

theorem c8_witness :
    generate_subtitles_core [⟨0, 0, ('h' :: []), 1⟩] 0 (1/2)
        ⟨true, 92/100, 250, 500, true⟩ =
      Except.error "FPS must be greater than 0" ∧
    generate_subtitles_core [] 1 (1/2) ⟨true, 92/100, 250, 500, true⟩ =
      Except.ok [] :=
  ⟨(c8_fps_and_empty [⟨0, 0, ('h' :: []), 1⟩] 0 (1/2)
      ⟨true, 92/100, 250, 500, true⟩).1 (by norm_num),
    (c8_fps_and_empty [] 1 (1/2) ⟨true, 92/100, 250, 500, true⟩).2 (by norm_num)⟩

theorem post_process_dense_ids (f : Bool) (thr : ℚ) (g d : ℕ)
    (subs out : List OcrSubtitleEntry)
    (hout : post_process f true thr g d subs = out) (hlen : 2 ≤ out.length) :
    ∀ i (h : i < out.length), (out.get ⟨i, h⟩).id = subtitle_id (i + 1) := by
  intro i h
  unfold post_process at hout
  dsimp only at hout
  generalize hfl : (if f = true then subs.filter (fun s => !text_looks_url_like s.text)
    else subs) = fl at hout
  by_cases hgt : 1 < fl.length
  · rw [if_pos ⟨rfl, hgt⟩] at hout
    subst hout
    rw [List.get_eq_getElem, List.getElem_mapIdx]
  · rw [if_neg (fun hc => hgt hc.2)] at hout
    subst hout
    omega

/-- C7 amended: when merging is enabled and at least two cues are returned,
the ids are densely numbered `sub-1`, `sub-2`, … in output order; with
merging disabled (or at most one surviving cue) the renumbering block does
not run and URL filtering can leave id gaps. -/
theorem c7_amended_dense_ids (frames : List OcrFrameResult) (fps minConf : ℚ)
    (cleanup : OcrSubtitleCleanupOptions) (subs : List OcrSubtitleEntry)
    (hm : cleanup.merge_similar = true)
    (hok : generate_subtitles_core frames fps minConf cleanup = Except.ok subs)
    (hlen : 2 ≤ subs.length) :
    ∀ i (h : i < subs.length), (subs.get ⟨i, h⟩).id = subtitle_id (i + 1) := by
  unfold generate_subtitles_core at hok
  by_cases hfps : fps ≤ 0
  · rw [if_pos hfps] at hok
    cases hok
  · rw [if_neg hfps] at hok
    simp only [Except.ok.injEq] at hok
    rw [hm] at hok
    exact post_process_dense_ids _ _ _ _ _ _ hok hlen

unseal Rat.mul Rat.inv Rat.add Rat.sub in
/-- C7 counterexample: with the URL filter on and merging off, dropping the
URL-like first cue leaves the survivor with id `sub-2` — the ids are not
densely renumbered. -/
theorem c7_counterexample :
    generate_subtitles_core
        [⟨0, 0, "www.example.com".toList, 99/100⟩,
         ⟨1, 1000, "Real subtitle".toList, 99/100⟩]
        1 (1/2) ⟨false, 92/100, 250, 300, true⟩ =
      Except.ok [⟨subtitle_id 2, "Real subtitle".toList, 1000, 2000, 99/100⟩] ∧
    subtitle_id 2 ≠ subtitle_id 1 := by
  decide

unseal Rat.mul Rat.inv Rat.add Rat.sub in
theorem c7_amended_witness :
    (([⟨subtitle_id 1, "Hello world".toList, 0, 1000, 9/10⟩,
       ⟨subtitle_id 2, "Goodbye now".toList, 5000, 5001, 9/10⟩] :
        List OcrSubtitleEntry).get ⟨1, by decide⟩).id = subtitle_id 2 :=
  c7_amended_dense_ids
    [⟨0, 0, "Hello world".toList, 9/10⟩, ⟨1, 5000, "Goodbye now".toList, 9/10⟩]
    1 (1/2) ⟨true, 92/100, 250, 500, false⟩ _ rfl (by decide) (by decide) 1 (by decide)

unseal Rat.mul Rat.inv Rat.add Rat.sub in
/-- C4 counterexample: one post-processing pass (merge enabled, threshold
0.9) merges the higher-confidence third cue into the second, replacing its
text with a variant similar to the first cue; a second pass then merges
again, so post-processing is not idempotent. -/
theorem c4_counterexample :
    post_process false true (9/10) 250 0
        (post_process false true (9/10) 250 0
          [⟨subtitle_id 1, "aaaaaaaaaa".toList, 0, 1000, 9/10⟩,
           ⟨subtitle_id 2, "aaaaaaaabb".toList, 1100, 2100, 9/10⟩,
           ⟨subtitle_id 3, "aaaaaaaaab".toList, 2200, 3200, 19/20⟩]) ≠
      post_process false true (9/10) 250 0
        [⟨subtitle_id 1, "aaaaaaaaaa".toList, 0, 1000, 9/10⟩,
         ⟨subtitle_id 2, "aaaaaaaabb".toList, 1100, 2100, 9/10⟩,
         ⟨subtitle_id 3, "aaaaaaaaab".toList, 2200, 3200, 19/20⟩] := by
  decide

theorem mergeFold_text_not_url (thr : ℚ) (g d : ℕ) :
    ∀ (subs acc : List OcrSubtitleEntry),
      (∀ s ∈ subs, text_looks_url_like s.text = false) →
      (∀ s ∈ acc, text_looks_url_like s.text = false) →
      ∀ s ∈ subs.foldl (mergeStep thr g d) acc,
        text_looks_url_like s.text = false := by
  intro subs
  induction subs with
  | nil => intro acc _ hacc; simpa using hacc
  | cons sub rest ih =>
    intro acc hsubs hacc
    rw [List.foldl_cons]
    apply ih
    · exact fun s hs => hsubs s (List.mem_cons_of_mem _ hs)
    · intro s hs
      rcases mergeStep_mem thr g d acc sub s hs with h | h | ⟨prev, hopt, _, _, htext, _⟩
      · exact hacc s h
      · subst h; exact hsubs s (List.mem_cons_self _ _)
      · rcases htext with ht | ht
        · rw [ht]
          exact hacc prev (List.mem_of_getLast?_eq_some hopt)
        · rw [ht]
          exact hsubs sub (List.mem_cons_self _ _)

theorem post_process_not_url (m : Bool) (thr : ℚ) (g d : ℕ)
    (subs : List OcrSubtitleEntry) :
    ∀ s ∈ post_process true m thr g d subs, text_looks_url_like s.text = false := by
  intro s hs
  unfold post_process at hs
  have hfil : ∀ t ∈ subs.filter (fun s => !text_looks_url_like s.text),
      text_looks_url_like t.text = false := by
    intro t ht
    have hmem := (List.mem_filter.mp ht).2
    simpa using hmem
  by_cases hm : m = true ∧
      1 < (if true = true then subs.filter (fun s => !text_looks_url_like s.text)
        else subs).length
  · rw [if_pos hm] at hs
    simp only [if_pos rfl] at hs
    simp only [List.mem_mapIdx] at hs
    obtain ⟨i, hi, rfl⟩ := hs
    have hP := mergeFold_text_not_url thr g d
      (subs.filter (fun s => !text_looks_url_like s.text)) []
      hfil (by simp) _ (List.getElem_mem hi)
    exact hP
  · rw [if_neg hm] at hs
    simp only [if_pos rfl] at hs
    exact hfil s hs

/-- C4 amended: a second URL-filter pass over post-processed output removes
nothing — every surviving cue's text is non-URL-like when the filter is
enabled.  A second merge pass, by contrast, can merge further (see the
counterexample): text replacement during a merge can make a kept cue similar
to its left neighbor. -/
theorem c4_amended_second_filter_noop (m : Bool) (thr : ℚ) (g d : ℕ)
    (subs : List OcrSubtitleEntry) :
    (post_process true m thr g d subs).filter
        (fun s => !text_looks_url_like s.text) =
      post_process true m thr g d subs := by
  apply List.filter_eq_self.mpr
  intro s hs
  rw [post_process_not_url m thr g d subs s hs]
  rfl


/-! ### Recognition-pool theorems (`perform.rs`) -/

/-- A successful `processFrame` reports the frame index it was given. -/
theorem processFrame_frame_index (fps : ℚ) (i : ℕ) (f : FrameInput)
    (r : OcrFrameResult) (h : processFrame fps i f = some r) : r.frame_index = i := by
  obtain ⟨img, recog⟩ := f
  cases img
  · simp [processFrame] at h
  · cases recog with
    | none => simp [processFrame] at h
    | some regions =>
      simp only [processFrame, Bool.not_true, Bool.false_eq_true, if_false,
        Option.some.injEq] at h
      subst h
      rfl

/-- A frame whose image load or recognition fails produces no result, at any
index. -/
theorem processFrame_none_of_fail (fps : ℚ) (i : ℕ) (f : FrameInput)
    (hfail : f.image = false ∨ f.recog = none) : processFrame fps i f = none := by
  obtain ⟨img, recog⟩ := f
  rcases hfail with h | h
  · simp only at h
    subst h
    simp [processFrame]
  · simp only at h
    subst h
    cases img <;> simp [processFrame]

/-- The indices attached by `enumFrom` are strictly increasing. -/
theorem pairwise_fst_lt_enumFrom {α : Type} (n : ℕ) (l : List α) :
    (l.enumFrom n).Pairwise (fun a b => a.1 < b.1) := by
  induction l generalizing n with
  | nil => simp
  | cons x xs ih =>
    rw [List.enumFrom_cons]
    refine List.Pairwise.cons (fun p hp => ?_) (ih (n + 1))
    obtain ⟨i, a⟩ := p
    have := List.le_fst_of_mem_enumFrom hp
    omega

/-- With no cancellation, the worker frame loop returns `Ok`, appends exactly
the successfully processed frames in order, and advances the progress counter
once per frame of the chunk. -/
theorem workerLoop_ok (fps : ℚ) (chunk : List (ℕ × FrameInput)) :
    ∀ acc prog, workerLoop false fps chunk acc prog =
      (Except.ok (acc ++ chunk.filterMap (fun p => processFrame fps p.1 p.2)),
        prog + chunk.length) := by
  induction chunk with
  | nil => intro acc prog; simp [workerLoop]
  | cons p rest ih =>
    intro acc prog
    obtain ⟨idx, f⟩ := p
    rw [workerLoop]
    simp only [Bool.false_eq_true, if_false, List.filterMap_cons]
    cases hpf : processFrame fps idx f with
    | none =>
      dsimp only
      rw [ih acc (prog + 1)]
      refine Prod.ext rfl ?_
      simp only [List.length_cons]
      omega
    | some r =>
      dsimp only
      rw [ih (acc ++ [r]) (prog + 1)]
      refine Prod.ext (by simp) ?_
      simp only [List.length_cons]
      omega

/-- With no cancellation and a healthy engine, collecting the workers returns
all chunk results in order and counts every frame. -/
theorem collectWorkers_ok (fps : ℚ) (chunks : List (List (ℕ × FrameInput))) :
    ∀ prog, collectWorkers false (Except.ok ()) fps chunks prog =
      (Except.ok (chunks.map (fun c => c.filterMap (fun p => processFrame fps p.1 p.2))),
        prog + (chunks.map List.length).sum) := by
  induction chunks with
  | nil => intro prog; simp [collectWorkers]
  | cons c rest ih =>
    intro prog
    rw [collectWorkers, workerRun]
    simp only [Bool.false_eq_true, if_false]
    rw [workerLoop_ok]
    dsimp only
    rw [ih]
    dsimp only
    refine Prod.ext ?_ ?_
    · simp
    · simp only [List.map_cons, List.sum_cons]
      omega

/-- The chunks of a list concatenate back to the list. -/
theorem listChunks_flatten {α : Type} (k : ℕ) (l : List α) :
    (listChunks l k).flatten = l := by
  have key : ∀ (n : ℕ) (l : List α), l.length = n → (listChunks l k).flatten = l := by
    intro n
    induction n using Nat.strong_induction_on with
    | _ n ih =>
      intro l hn
      cases l with
      | nil => rw [listChunks]; rfl
      | cons x xs =>
        simp only [List.length_cons] at hn
        rw [listChunks, List.flatten_cons,
          ih ((xs.drop (k - 1)).length) (by simp [List.length_drop]; omega) _ rfl]
        rw [List.cons_append, List.take_append_drop]
  exact key l.length l rfl

/-- Every result drawn from the enumerated frames carries an index at least the
enumeration base. -/
theorem frameIndex_lb_of_mem_filterMap (fps : ℚ) (m : ℕ) (xs : List FrameInput)
    (r : OcrFrameResult)
    (hr : r ∈ (xs.enumFrom m).filterMap (fun p => processFrame fps p.1 p.2)) :
    m ≤ r.frame_index := by
  obtain ⟨⟨i, f⟩, hmem, hpf⟩ := List.mem_filterMap.mp hr
  have := List.le_fst_of_mem_enumFrom hmem
  have := processFrame_frame_index fps i f r hpf
  omega

/-- Every result drawn from the enumerated frames carries an index below the
frame count (plus the enumeration base). -/
theorem frameIndex_ub_of_mem_filterMap (fps : ℚ) (m : ℕ) (xs : List FrameInput)
    (r : OcrFrameResult)
    (hr : r ∈ (xs.enumFrom m).filterMap (fun p => processFrame fps p.1 p.2)) :
    r.frame_index < m + xs.length := by
  obtain ⟨⟨i, f⟩, hmem, hpf⟩ := List.mem_filterMap.mp hr
  have := List.fst_lt_add_of_mem_enumFrom hmem
  have := processFrame_frame_index fps i f r hpf
  omega

/-- The per-frame results of the enumerated frames are strictly ascending in
`frame_index`. -/
theorem pairwise_frameIndex_filterMap (fps : ℚ) (m : ℕ) (xs : List FrameInput) :
    ((xs.enumFrom m).filterMap (fun p => processFrame fps p.1 p.2)).Pairwise
      (fun a b => a.frame_index < b.frame_index) := by
  refine List.Pairwise.filterMap _ ?_ (pairwise_fst_lt_enumFrom m xs)
  intro a b hab r hr r' hr'
  have h1 := processFrame_frame_index fps a.1 a.2 r hr
  have h2 := processFrame_frame_index fps b.1 b.2 r' hr'
  omega

/-- With positive fps and a healthy engine, `perform_ocr_core` succeeds and
returns exactly the per-frame results of the enumerated frames, in index
order. -/
theorem perform_ocr_core_ok_eq (frames : List FrameInput) (fps : ℚ)
    (w : ℕ) (h : ¬ fps ≤ 0) :
    perform_ocr_core frames fps w (Except.ok ()) =
      Except.ok (frames.enum.filterMap (fun p => processFrame fps p.1 p.2)) := by
  rw [perform_ocr_core, if_neg h]
  cases frames with
  | nil => rfl
  | cons x xs =>
    rw [if_neg (by simp)]
    simp only [collectWorkers_ok]
    rw [← List.filterMap_flatten, listChunks_flatten]
    rw [List.mergeSort_of_sorted]
    refine List.Pairwise.imp ?_ (pairwise_frameIndex_filterMap fps 0 (x :: xs))
    intro a b hab
    simp only [decide_eq_true_eq]
    omega

/-- With positive fps, no cancellation and a healthy engine, the `perform_ocr`
command succeeds with the same results and a final progress count equal to the
number of frames. -/
theorem perform_ocr_run_ok_eq (frames : List FrameInput) (fps : ℚ)
    (w : ℕ) (h : ¬ fps ≤ 0) :
    perform_ocr_run frames fps w false (Except.ok ()) =
      (Except.ok (frames.enum.filterMap (fun p => processFrame fps p.1 p.2)),
        frames.length) := by
  rw [perform_ocr_run, if_neg h]
  cases frames with
  | nil => rfl
  | cons x xs =>
    rw [if_neg (by simp)]
    simp only [collectWorkers_ok]
    rw [← List.filterMap_flatten, listChunks_flatten]
    rw [List.mergeSort_of_sorted]
    · simp only [Prod.mk.injEq, true_and]
      rw [← List.length_flatten, listChunks_flatten]
      simp [List.enum]
    · refine List.Pairwise.imp ?_ (pairwise_frameIndex_filterMap fps 0 (x :: xs))
      intro a b hab
      simp only [decide_eq_true_eq]
      omega

/-- A dead engine makes every worker fail, so a nonempty chunk list collects to
the engine error. -/
theorem collectWorkers_engine_error (e : String) (fps : ℚ)
    (chunk : List (ℕ × FrameInput)) (chunks : List (List (ℕ × FrameInput)))
    (prog : ℕ) :
    collectWorkers false (Except.error e) fps (chunk :: chunks) prog =
      (Except.error e, prog) := by
  rw [collectWorkers, workerRun]
  rfl

/-- **C1**: whenever the recognition pool returns `Ok`, the result list is
strictly ascending in `frame_index` — hence sorted with no duplicate index —
and every `frame_index` is one of the input's 0-based indices. -/
theorem c1_recognize_all_sorted (frames : List FrameInput) (fps : ℚ) (w : ℕ)
    (engine : Except String Unit) (rs : List OcrFrameResult)
    (hok : perform_ocr_core frames fps w engine = Except.ok rs) :
    rs.Pairwise (fun a b => a.frame_index < b.frame_index) ∧
      (rs.map (fun r => r.frame_index)).Nodup ∧
      ∀ r ∈ rs, r.frame_index < frames.length := by
  by_cases hfps : fps ≤ 0
  · rw [perform_ocr_core, if_pos hfps] at hok
    exact absurd hok (by simp)
  cases frames with
  | nil =>
    rw [perform_ocr_core, if_neg hfps] at hok
    simp only [List.isEmpty_nil, if_true] at hok
    obtain rfl : rs = [] := by simpa using hok.symm
    simp
  | cons x xs =>
    cases engine with
    | error e =>
      rw [perform_ocr_core, if_neg hfps, if_neg (by simp)] at hok
      dsimp only at hok
      rw [show (x :: xs).enum = (0, x) :: xs.enumFrom 1 from rfl] at hok
      rw [listChunks, collectWorkers_engine_error] at hok
      exact absurd hok (by simp)
    | ok u =>
      cases u
      rw [perform_ocr_core_ok_eq _ _ _ hfps] at hok
      obtain rfl : rs = (x :: xs).enum.filterMap (fun p => processFrame fps p.1 p.2) := by
        simpa using hok.symm
      rw [show (x :: xs).enum = (x :: xs).enumFrom 0 from rfl]
      refine ⟨pairwise_frameIndex_filterMap fps 0 (x :: xs), ?_, ?_⟩
      · exact List.Pairwise.map _ (fun a b h => Nat.ne_of_lt h)
          (pairwise_frameIndex_filterMap fps 0 (x :: xs))
      · intro r hr
        have := frameIndex_ub_of_mem_filterMap fps 0 (x :: xs) r hr
        omega

/-- Replacing the frame at position `k` by a failing frame removes exactly the
index-`n + k` entry from the per-frame results of the enumeration based at
`n`, leaving every other entry unchanged. -/
theorem filterMap_enumFrom_set (fps : ℚ) (fk : FrameInput)
    (hfail : fk.image = false ∨ fk.recog = none) :
    ∀ (frames : List FrameInput) (n k : ℕ), k < frames.length →
      ((frames.set k fk).enumFrom n).filterMap (fun p => processFrame fps p.1 p.2) =
        ((frames.enumFrom n).filterMap (fun p => processFrame fps p.1 p.2)).filter
          (fun r => decide (r.frame_index ≠ n + k)) := by
  intro frames
  induction frames with
  | nil =>
    intro n k hk
    simp at hk
  | cons x xs ih =>
    intro n k hk
    cases k with
    | zero =>
      rw [List.set_cons_zero, List.enumFrom_cons, List.enumFrom_cons,
        List.filterMap_cons, List.filterMap_cons]
      dsimp only
      rw [processFrame_none_of_fail fps n fk hfail]
      cases hx : processFrame fps n x with
      | none =>
        dsimp only
        rw [List.filter_eq_self.mpr]
        intro r hr
        have := frameIndex_lb_of_mem_filterMap fps (n + 1) xs r hr
        simp only [decide_eq_true_eq]
        omega
      | some r =>
        have hrn : r.frame_index = n := processFrame_frame_index fps n x r hx
        dsimp only
        rw [List.filter_cons, if_neg (by simp [hrn])]
        rw [List.filter_eq_self.mpr]
        intro s hs
        have := frameIndex_lb_of_mem_filterMap fps (n + 1) xs s hs
        simp only [decide_eq_true_eq]
        omega
    | succ j =>
      rw [List.set_cons_succ, List.enumFrom_cons, List.enumFrom_cons,
        List.filterMap_cons, List.filterMap_cons]
      dsimp only
      have hstep : n + (j + 1) = (n + 1) + j := by omega
      cases hx : processFrame fps n x with
      | none =>
        dsimp only
        rw [hstep, ih (n + 1) j (by simpa using hk)]
      | some r =>
        have hrn : r.frame_index = n := processFrame_frame_index fps n x r hx
        dsimp only
        rw [List.filter_cons, if_pos (by simp [hrn])]
        rw [hstep, ih (n + 1) j (by simpa using hk)]

/-- **C5**: a single frame's image-load or recognition failure never aborts
the batch: the command still returns `Ok`, the shared progress counter still
reaches the total frame count (it advances for the failed frame too), and the
result is exactly the unperturbed result with the failed frame's entry
omitted — all other frames' results are unaffected. -/
theorem c5_per_frame_failure (frames : List FrameInput) (fps : ℚ) (w k : ℕ)
    (fk : FrameInput) (hfps : ¬ fps ≤ 0) (hk : k < frames.length)
    (hfail : fk.image = false ∨ fk.recog = none) :
    perform_ocr_run frames fps w false (Except.ok ()) =
      (Except.ok (frames.enum.filterMap (fun p => processFrame fps p.1 p.2)),
        frames.length) ∧
    perform_ocr_run (frames.set k fk) fps w false (Except.ok ()) =
      (Except.ok ((frames.enum.filterMap (fun p => processFrame fps p.1 p.2)).filter
          (fun r => decide (r.frame_index ≠ k))), frames.length) := by
  refine ⟨perform_ocr_run_ok_eq frames fps w hfps, ?_⟩
  rw [perform_ocr_run_ok_eq _ _ _ hfps, List.length_set]
  rw [show (frames.set k fk).enum = (frames.set k fk).enumFrom 0 from rfl,
    show frames.enum = frames.enumFrom 0 from rfl]
  rw [filterMap_enumFrom_set fps fk hfail frames 0 k hk]
  simp only [Nat.zero_add]

/-- **C6** (perform side): zero frames are not rejected — the recognition pool
returns `Ok` with an empty result, for any positive fps. -/
theorem c6_perform_empty_ok (fps : ℚ) (w : ℕ) (engine : Except String Unit)
    (hfps : 0 < fps) : perform_ocr_core [] fps w engine = Except.ok [] := by
  rw [perform_ocr_core, if_neg (not_le.mpr hfps)]
  rfl

unseal Rat.mul Rat.inv Rat.add Rat.sub listChunks List.mergeSort List.merge in
theorem c1_witness :
    (([⟨0, 0, ('H' :: 'i' :: []), 9/10⟩] : List OcrFrameResult)).Pairwise
        (fun a b => a.frame_index < b.frame_index) ∧
      ((([⟨0, 0, ('H' :: 'i' :: []), 9/10⟩] : List OcrFrameResult)).map
        (fun r => r.frame_index)).Nodup ∧
      (⟨0, 0, ('H' :: 'i' :: []), 9/10⟩ : OcrFrameResult).frame_index < 2 := by
  have h := c1_recognize_all_sorted
    [⟨true, some [⟨('H' :: 'i' :: []), 9/10, 0⟩]⟩, ⟨true, none⟩] 1 1
    (Except.ok ()) [⟨0, 0, ('H' :: 'i' :: []), 9/10⟩] (by rfl)
  exact ⟨h.1, h.2.1, h.2.2 _ (List.mem_singleton.mpr rfl)⟩

unseal Rat.mul Rat.inv Rat.add Rat.sub listChunks List.mergeSort List.merge in
theorem c5_witness :
    perform_ocr_run
        [⟨true, some [⟨('H' :: 'i' :: []), 9/10, 0⟩]⟩,
         ⟨true, some [⟨('Y' :: 'o' :: []), 1/2, 0⟩]⟩] 1 1 false (Except.ok ()) =
      (Except.ok [⟨0, 0, ('H' :: 'i' :: []), 9/10⟩,
        ⟨1, 1000, ('Y' :: 'o' :: []), 1/2⟩], 2) ∧
    perform_ocr_run
        [⟨true, some [⟨('H' :: 'i' :: []), 9/10, 0⟩]⟩, ⟨true, none⟩] 1 1 false
        (Except.ok ()) =
      (Except.ok [⟨0, 0, ('H' :: 'i' :: []), 9/10⟩], 2) := by
  have h := c5_per_frame_failure
    [⟨true, some [⟨('H' :: 'i' :: []), 9/10, 0⟩]⟩,
     ⟨true, some [⟨('Y' :: 'o' :: []), 1/2, 0⟩]⟩] 1 1 1 ⟨true, none⟩
    (by norm_num) (by norm_num) (Or.inr rfl)
  exact ⟨h.1.trans (by rfl), h.2.trans (by rfl)⟩

/-- With positive fps, subtitle generation on an empty frame-result list
returns an empty cue list. -/
theorem generate_subtitles_core_empty_ok (fps minConf : ℚ)
    (cleanup : OcrSubtitleCleanupOptions) (hfps : 0 < fps) :
    generate_subtitles_core [] fps minConf cleanup = Except.ok [] := by
  unfold generate_subtitles_core
  rw [if_neg (not_le.mpr hfps)]
  show Except.ok (post_process cleanup.filter_url_like cleanup.merge_similar
    (if cleanup.merge_similar = true then
      clamp_f64 cleanup.similarity_threshold (80/100) (98/100) else 1)
    cleanup.max_gap_ms cleanup.min_cue_duration_ms []) = Except.ok []
  rw [post_process_nil]

/-- **C6** counterexample: zero frames are NOT rejected as an error — with the
concrete configuration below (fps 1, one worker, healthy engine, default-style
cleanup options), both the recognition pool and subtitle generation return
`Ok` with an empty result instead of failing. -/
theorem c6_counterexample :
    perform_ocr_core [] 1 1 (Except.ok ()) = Except.ok [] ∧
    generate_subtitles_core [] 1 (1/2) ⟨true, 92/100, 250, 500, true⟩ =
      Except.ok [] :=
  ⟨c6_perform_empty_ok 1 1 (Except.ok ()) (by norm_num),
    generate_subtitles_core_empty_ok 1 (1/2) ⟨true, 92/100, 250, 500, true⟩
      (by norm_num)⟩

/-- **C6 (amended)**: zero frames are accepted, not rejected: with positive
fps both the recognition pool and subtitle generation immediately return `Ok`
with an empty result on empty input; only non-positive fps is the
synchronously rejected configuration error. -/
theorem c6_amended_zero_frames (fps minConf : ℚ) (w : ℕ)
    (engine : Except String Unit) (cleanup : OcrSubtitleCleanupOptions) :
    (0 < fps →
      perform_ocr_core [] fps w engine = Except.ok [] ∧
      generate_subtitles_core [] fps minConf cleanup = Except.ok []) ∧
    (fps ≤ 0 →
      perform_ocr_core [] fps w engine =
        Except.error "FPS must be greater than 0" ∧
      generate_subtitles_core [] fps minConf cleanup =
        Except.error "FPS must be greater than 0") := by
  constructor
  · intro h
    exact ⟨c6_perform_empty_ok fps w engine h,
      generate_subtitles_core_empty_ok fps minConf cleanup h⟩
  · intro h
    constructor
    · rw [perform_ocr_core, if_pos h]
    · unfold generate_subtitles_core
      rw [if_pos h]

theorem c6_amended_witness :
    (perform_ocr_core [] 1 1 (Except.ok ()) = Except.ok [] ∧
      generate_subtitles_core [] 1 (1/2) ⟨false, 92/100, 250, 500, false⟩ =
        Except.ok []) ∧
    (perform_ocr_core [] 0 1 (Except.ok ()) =
        Except.error "FPS must be greater than 0" ∧
      generate_subtitles_core [] 0 (1/2) ⟨false, 92/100, 250, 500, false⟩ =
        Except.error "FPS must be greater than 0") :=
  ⟨(c6_amended_zero_frames 1 (1/2) 1 (Except.ok ())
      ⟨false, 92/100, 250, 500, false⟩).1 (by norm_num),
    (c6_amended_zero_frames 0 (1/2) 1 (Except.ok ())
      ⟨false, 92/100, 250, 500, false⟩).2 (by norm_num)⟩

end RsExtractor
